import Mathlib

/-!
# Verification of the auto-subtitle pipeline core

Shallow embedding of the cache-aware subtitle pipeline
(`auto_subtitle/cli.py` and `auto_subtitle/utils.py`).

Modelling conventions:
* Python strings are `List Char` (`Str` below); file paths,
  file contents and subtitle texts all use this representation.
* Timestamps are integer milliseconds.  The source manipulates float
  seconds, but `format_timestamp` first rounds to whole milliseconds and
  all timestamp claims are stated at millisecond granularity, so the
  embedding works with the millisecond total directly.
* Filesystem modification times are natural numbers (only their order
  matters to the code).
* Fallible Python code (ValueError from tuple unpacking or `int()`,
  AssertionError from the nonnegativity assert, exceptions raised by the
  translation collaborator) is modelled with `Option`/`Except`.
-/

set_option linter.unusedVariables false

abbrev Str := List Char

def chars (s : String) : Str := s.data

/-- ASCII fragment of the whitespace set used by Python `str.strip()`. -/
def pyWs (c : Char) : Bool :=
  c = ' ' || c = '\t' || c = '\n' || c = '\r' || c = '\x0b' || c = '\x0c'

/-- Python `str.lstrip()`. -/
def lstripWs (l : Str) : Str := l.dropWhile pyWs

/-- Python `str.rstrip()`. -/
def rstripWs (l : Str) : Str := (l.reverse.dropWhile pyWs).reverse

/-- Python `str.strip()`. -/
def pystrip (l : Str) : Str := rstripWs (lstripWs l)

/-- Python `str.split(sep)` for a single-character separator: splits at
every occurrence and keeps empty pieces. -/
def splitChar (sep : Char) : Str → List Str
  | [] => [[]]
  | c :: cs =>
    match splitChar sep cs with
    | [] => [[]]
    | h :: t => if c = sep then [] :: h :: t else (c :: h) :: t

/-- Decimal digit characters. -/
def isDig (c : Char) : Bool :=
  c = '0' || c = '1' || c = '2' || c = '3' || c = '4' ||
  c = '5' || c = '6' || c = '7' || c = '8' || c = '9'

/-- Decimal digits of a natural number, most significant first (what
Python `repr`/format produce for a non-negative int).  Structural fuel
keeps the definition kernel-reducible. -/
def natReprAux : Nat → Nat → Str
  | 0, _ => []
  | fuel + 1, n =>
    if n < 10 then [Nat.digitChar n]
    else natReprAux fuel (n / 10) ++ [Nat.digitChar (n % 10)]

def natRepr (n : Nat) : Str := natReprAux (n + 1) n

/-- Python format spec `0Nd` applied to a non-negative int: left pad the
decimal representation with zeros up to the width. -/
def padZero (w : Nat) (l : Str) : Str := List.replicate (w - l.length) '0' ++ l

def digitVal (c : Char) : Nat := c.toNat - 48

def parseDigitsAux (acc : Nat) : Str → Option Nat
  | [] => some acc
  | c :: cs => if isDig c then parseDigitsAux (acc * 10 + digitVal c) cs else none

/-- Digit-string core of Python `int()`: a nonempty all-digit string. -/
def parseDigits (l : Str) : Option Nat :=
  match l with
  | [] => none
  | _ => parseDigitsAux 0 l

/-- Python `int()` on a text token: surrounding whitespace is ignored and
an optional sign precedes the digits.  (Underscore digit grouping is not
modelled; no input in this development contains one.) -/
def pyInt (l : Str) : Option Int :=
  let s := pystrip l
  if s.head? = some '-' then (parseDigits s.tail).map (fun n => -(n : Int))
  else if s.head? = some '+' then (parseDigits s.tail).map (fun n => (n : Int))
  else (parseDigits s).map (fun n => (n : Int))

/-- `utils.format_timestamp`, input in integer milliseconds.  The source
computes `x -= (x / k) * k` after each floor division, which equals
`x % k`. -/
def format_timestamp (msTotal : Nat) (alwaysIncludeHours : Bool) : Str :=
  (if alwaysIncludeHours || decide (0 < msTotal / 3600000)
    then padZero 2 (natRepr (msTotal / 3600000)) ++ [':'] else [])
  ++ padZero 2 (natRepr (msTotal % 3600000 / 60000)) ++ [':']
  ++ padZero 2 (natRepr (msTotal % 3600000 % 60000 / 1000)) ++ [',']
  ++ padZero 3 (natRepr (msTotal % 3600000 % 60000 % 1000))

/-- Python 2-tuple unpacking of a list: ValueError unless exactly two
elements. -/
def unpack2 : List Str → Option (Str × Str)
  | [a, b] => some (a, b)
  | _ => none

/-- Python 3-tuple unpacking of a list: ValueError unless exactly three
elements. -/
def unpack3 : List Str → Option (Str × Str × Str)
  | [a, b, c] => some (a, b, c)
  | _ => none

/-- `utils.parse_timestamp`, result in integer milliseconds (the source
returns the float `h*3600 + m*60 + s + ms/1000`; a thousand times that
value is exactly this integer).  `none` models the ValueError raised by
tuple unpacking (wrong number of pieces) or by `int()`. -/
def parse_timestamp (ts : Str) : Option Int :=
  (unpack2 (splitChar ',' ts)).bind (fun p =>
    (unpack3 (splitChar ':' p.1)).bind (fun q =>
      (pyInt q.1).bind (fun hv =>
        (pyInt q.2.1).bind (fun mv =>
          (pyInt q.2.2).bind (fun sv =>
            (pyInt p.2).map (fun msv =>
              (hv * 3600 + mv * 60 + sv) * 1000 + msv))))))

/-! ## Subtitle segments and the serializer -/

/-- Python exceptions the embedded code can raise. -/
inductive PyErr
  /-- ValueError from tuple unpacking or from `int()`. -/
  | valueError
  /-- AssertionError from the nonnegativity assert in format_timestamp. -/
  | assertionError
  /-- An exception raised by the translation collaborator. -/
  | translationFailed
deriving DecidableEq, Repr

/-- A subtitle segment, times in integer milliseconds (`parse_timestamp`
can return a negative value, hence `Int`).  The source's `end` key is
`stop` here (`end` is reserved in Lean). -/
structure Seg where
  start : Int
  stop : Int
  text : Str
deriving DecidableEq, Repr

/-- `utils.translate_text` over an abstract collaborator `tr`: empty or
all-whitespace text is returned unchanged without invoking `tr`. -/
def translate_text (tr : Str → Except PyErr Str) (text : Str) :
    Except PyErr Str :=
  if pystrip text = [] then .ok text else tr text

/-- `format_timestamp` as called on a possibly-negative value: the
source asserts `seconds >= 0` and raises otherwise. -/
def format_timestampI (ms : Int) (aih : Bool) : Except PyErr Str :=
  if ms < 0 then .error .assertionError else .ok (format_timestamp ms.toNat aih)

/-- Python `str.replace` of the literal arrow by the short arrow, as
applied by `utils.write_srt` to each segment text. -/
def replaceArrow : Str → Str
  | [] => []
  | '-' :: '-' :: '>' :: rest => '-' :: '>' :: replaceArrow rest
  | c :: rest => c :: replaceArrow rest

/-- Python substring test for the literal arrow. -/
def containsArrow : Str → Bool
  | [] => false
  | '-' :: '-' :: '>' :: _ => true
  | _ :: rest => containsArrow rest

/-- Python `str.split` on the three-character arrow separator. -/
def splitArrow : Str → List Str
  | [] => [[]]
  | '-' :: '-' :: '>' :: rest => [] :: splitArrow rest
  | c :: rest =>
    match splitArrow rest with
    | [] => [[c]]
    | h :: t => (c :: h) :: t

/-- Python `" ".join`. -/
def joinSpace : List Str → Str
  | [] => []
  | [x] => x
  | x :: xs => x ++ ' ' :: joinSpace xs

/-- Blank-line separated block building (first loop of
`utils.translate_srt_file`).  The source iterates file lines rstripping
the newline; feeding it the pieces of `splitChar '\n'` is behaviorally
identical (the possible final empty piece is a blank line, which only
flushes the pending block, exactly as end-of-file does). -/
def buildBlocksAux : List Str → List Str → List (List Str)
  | [], block => if block.isEmpty then [] else [block]
  | line :: rest, block =>
    if pystrip line = [] then
      if block.isEmpty then buildBlocksAux rest []
      else block :: buildBlocksAux rest []
    else buildBlocksAux rest (block ++ [line])

def buildBlocks (ls : List Str) : List (List Str) := buildBlocksAux ls []

/-- One block of the second loop of `utils.translate_srt_file`: `none`
when the block is silently skipped (fewer than two lines, or no arrow in
the timing line), an error for the uncaught ValueError of unpacking or
timestamp parsing, otherwise start, end, and the trimmed space-joined
text. -/
def parseBlock (blk : List Str) : Except PyErr (Option (Int × Int × Str)) :=
  match blk with
  | _ :: time_line :: rest =>
    if containsArrow time_line = false then .ok none
    else
      match unpack2 (splitArrow time_line) with
      | none => .error .valueError
      | some (x, y) =>
        match parse_timestamp (pystrip x) with
        | none => .error .valueError
        | some st =>
          match parse_timestamp (pystrip y) with
          | none => .error .valueError
          | some en =>
            .ok (some (st, en,
              pystrip (joinSpace (if rest.isEmpty then [[]] else rest))))
  | _ => .ok none

/-- Second loop of `utils.translate_srt_file` over the blocks: parse
each block and translate the text of each kept block; a ValueError or a
collaborator exception propagates (the source has no try/except). -/
def parseTransBlocks (tr : Str → Except PyErr Str) :
    List (List Str) → Except PyErr (List Seg)
  | [] => .ok []
  | blk :: rest =>
    match parseBlock blk with
    | .error e => .error e
    | .ok none => parseTransBlocks tr rest
    | .ok (some (st, en, txt)) =>
      match translate_text tr txt with
      | .error e => .error e
      | .ok txt2 =>
        match parseTransBlocks tr rest with
        | .error e => .error e
        | .ok segs => .ok (⟨st, en, txt2⟩ :: segs)

/-- `utils.write_srt`: one four-line record per segment, 1-based index,
hour-included timestamps, trimmed text with the arrow replaced.  The
result is the full text written to the sink; the error models the
AssertionError raised on a negative time. -/
def write_srtAux : Nat → List Seg → Except PyErr Str
  | _, [] => .ok []
  | i, s :: rest =>
    match format_timestampI s.start true with
    | .error e => .error e
    | .ok t1 =>
      match format_timestampI s.stop true with
      | .error e => .error e
      | .ok t2 =>
        match write_srtAux (i + 1) rest with
        | .error e => .error e
        | .ok r =>
          .ok (natRepr i ++ '\n' ::
            ((t1 ++ ' ' :: '-' :: '-' :: '>' :: ' ' :: t2) ++ '\n' ::
              (replaceArrow (pystrip s.text) ++ '\n' :: '\n' :: r)))

def write_srt (segs : List Seg) : Except PyErr Str := write_srtAux 1 segs

/-- `utils.translate_srt_file`, given the source file's content and the
translation collaborator; the result is the content written to the
destination file.  On any exception nothing has been written, because
the source opens the destination only after the whole parse/translate
loop has finished. -/
def translate_srt_file (srcContent : Str) (tr : Str → Except PyErr Str) :
    Except PyErr Str :=
  match parseTransBlocks tr (buildBlocks (splitChar '\n' srcContent)) with
  | .error e => .error e
  | .ok segs => write_srt segs

/-- The reading half of `translate_srt_file` (the spec's `read`): block
splitting and parsing, with the translation step the identity. -/
def read_srt (content : Str) : Except PyErr (List Seg) :=
  parseTransBlocks (fun t => .ok t) (buildBlocks (splitChar '\n' content))

/-- The timing line write_srt emits for one segment. -/
def timeLine (s : Seg) : Str :=
  format_timestamp s.start.toNat true ++
    ' ' :: '-' :: '-' :: '>' :: ' ' :: format_timestamp s.stop.toNat true

/-- The text line write_srt emits for one segment. -/
def textLine (s : Seg) : Str := replaceArrow (pystrip s.text)

/-- The lines of write_srt output from index `i` on, each block followed
by its blank separator line. -/
def srtLines : Nat → List Seg → List Str
  | _, [] => []
  | i, s :: rest =>
    natRepr i :: timeLine s :: textLine s :: [] :: srtLines (i + 1) rest

/-- The blocks the reader recovers from write_srt output. -/
def srtBlocks : Nat → List Seg → List (List Str)
  | _, [] => []
  | i, s :: rest =>
    [natRepr i, timeLine s, textLine s] :: srtBlocks (i + 1) rest

/-- A segment with its text trimmed (what one round trip produces). -/
def trimSeg (s : Seg) : Seg := ⟨s.start, s.stop, pystrip s.text⟩

/-- The segment one block contributes to a successful read, if any. -/
def parsedSeg (blk : List Str) : Option Seg :=
  match parseBlock blk with
  | .ok (some (st, en, tx)) => some ⟨st, en, tx⟩
  | _ => none

/-! ## Paths, the filesystem view, and the resolver (cli.main) -/

/-- posixpath.basename: everything after the last slash. -/
def basename (p : Str) : Str := (splitChar '/' p).getLastD []

/-- Index of the last dot of a string, counted from the front. -/
def lastDotIdx : Str → Option Nat
  | [] => none
  | c :: rest =>
    match lastDotIdx rest with
    | some j => some (j + 1)
    | none => if c = '.' then some 0 else none

/-- posixpath.splitext restricted to a slash-free name (the code only
applies it to a basename), keeping the stem: the extension starts at the
last dot, unless every character before that dot is itself a dot, in
which case there is no extension. -/
def splitextStem (l : Str) : Str :=
  match lastDotIdx l with
  | none => l
  | some i => if (l.take i).all (fun c => c = '.') then l else l.take i

/-- `utils.filename`: the stem of the basename of a path. -/
def filename (p : Str) : Str := splitextStem (basename p)

/-- os.path.join of two components. -/
def pyJoin (a b : Str) : Str :=
  if b.head? = some '/' then b
  else if a.isEmpty || a.getLast? = some '/' then a ++ b
  else a ++ '/' :: b

/-- Candidate path of the original-language artifact of a video. -/
def srtOriginalPath (base p : Str) : Str :=
  pyJoin base (filename p ++ chars ".srt")

/-- Candidate path of the translated artifact of a video. -/
def srtTranslatedPath (base tgt p : Str) : Str :=
  pyJoin base (filename p ++ '_' :: (tgt ++ chars ".srt"))

/-- The filesystem as seen by the resolver: the modification time of
each path, `none` when the path does not exist. -/
abbrev FSview := Str → Option Nat

/-- The freshness test of cli.main:
`os.path.exists(srt) and os.path.getmtime(srt) >= os.path.getmtime(path)`.
An input video is assumed to exist (`getmtime` on a missing video would
raise; the pipeline facts only instantiate existing videos). -/
def artifactValid (fs : FSview) (srt video : Str) : Bool :=
  match fs srt with
  | none => false
  | some am =>
    match fs video with
    | none => false
    | some vm => decide (vm ≤ am)

/-- Truthiness of the optional target-language string (Python None and
the empty string are both falsy). -/
def optTruthy : Option Str → Bool
  | none => false
  | some s => !s.isEmpty

/-- Work classification of one video (spec 3 and 4.4). -/
inductive Classification
  | ReuseOriginal
  | ReuseTranslated
  | TranslateExisting
  | TranscribeFresh
deriving DecidableEq, Repr

/-- The four classification rules, read off the branch structure of the
per-video loop of cli.main, in the precedence order of the code: with a
target requested a fresh translated artifact wins, then a fresh
original, then transcription; without a target a fresh original is
reused, otherwise the video is transcribed. -/
def classify (targetRequested originalValid translatedValid : Bool) :
    Classification :=
  if targetRequested then
    if translatedValid then .ReuseTranslated
    else if originalValid then .TranslateExisting
    else .TranscribeFresh
  else
    if originalValid then .ReuseOriginal
    else .TranscribeFresh

/-- The mutable state of cli.main: the two artifact dictionaries, the
embed map and the two work lists.  The dictionaries are only ever used
through key lookup, so a function map is a faithful view; `embed_map`
holding Python None and a missing `embed_map` key both read back as
falsy, so both are `none` here. -/
structure MainState where
  subtitles_original : Str → Option Str
  subtitles_translated : Str → Option Str
  embed_map : Str → Option Str
  videos_to_transcribe : List Str
  translate_existing : List (Str × Str × Str)

def initState : MainState :=
  ⟨fun _ => none, fun _ => none, fun _ => none, [], []⟩

/-- Dictionary assignment. -/
def mapSet (m : Str → Option Str) (k : Str) (v : Option Str) :
    Str → Option Str :=
  fun x => if x = k then v else m x

/-- One iteration of the per-video classification loop of cli.main. -/
def classifyStep (fs : FSview) (base : Str) (translate_to : Option Str)
    (st : MainState) (path : Str) : MainState :=
  let srt_original := srtOriginalPath base path
  let original_valid := artifactValid fs srt_original path
  let st1 :=
    if original_valid then
      { st with subtitles_original :=
          mapSet st.subtitles_original path (some srt_original) }
    else st
  let tt := optTruthy translate_to
  let srt_translated := srtTranslatedPath base (translate_to.getD []) path
  let translated_valid := tt && artifactValid fs srt_translated path
  let st2 :=
    if translated_valid then
      { st1 with subtitles_translated :=
            mapSet st1.subtitles_translated path (some srt_translated) }
    else st1
  if tt then
    if translated_valid then
      { st2 with embed_map :=
            mapSet st2.embed_map path (some srt_translated) }
    else if original_valid then
      { st2 with translate_existing :=
            st2.translate_existing ++ [(path, srt_original, srt_translated)] }
    else
      { st2 with videos_to_transcribe :=
            st2.videos_to_transcribe ++ [path] }
  else
    if original_valid then
      { st2 with embed_map :=
            mapSet st2.embed_map path (some srt_original) }
    else
      { st2 with videos_to_transcribe :=
            st2.videos_to_transcribe ++ [path] }

/-- The classification loop over all input videos. -/
def classifyAll (fs : FSview) (base : Str) (translate_to : Option Str)
    (videos : List Str) : MainState :=
  videos.foldl (classifyStep fs base translate_to) initState

/-- One iteration of the translate-existing loop of cli.main over an
item `(path, src_srt, dst_srt)`: `contents` is the text of each existing
file and `tr` the translation collaborator.  `translate_srt_file`
returns the destination path, so success stores `dst_srt`; the dead
fallback branch of the source fires only on a falsy return value; an
exception propagates because the loop has no try/except. -/
def translateExistingStep (contents : Str → Str) (tr : Str → Except PyErr Str)
    (st : MainState) : Str × Str × Str → Except PyErr MainState :=
  fun x =>
    match translate_srt_file (contents x.2.1) tr with
    | .error e => .error e
    | .ok _ =>
      if x.2.2.isEmpty then
        .ok { st with videos_to_transcribe := st.videos_to_transcribe ++ [x.1] }
      else
        .ok { st with
          subtitles_translated :=
            mapSet st.subtitles_translated x.1 (some x.2.2),
          embed_map := mapSet st.embed_map x.1 (some x.2.2) }

def translateExistingAll (contents : Str → Str) (tr : Str → Except PyErr Str)
    (st : MainState) (items : List (Str × Str × Str)) :
    Except PyErr MainState :=
  items.foldlM (translateExistingStep contents tr) st

/-- The `new_original` dictionary produced by get_subtitles (success
path): the original artifact of every transcribed video. -/
def newOriginalMap (base : Str) (vts : List Str) (p : Str) : Option Str :=
  if p ∈ vts then some (srtOriginalPath base p) else none

/-- The `new_translated` dictionary produced by get_subtitles (success
path): the translated artifact of every transcribed video when a target
language is set. -/
def newTranslatedMap (base : Str) (translate_to : Option Str)
    (vts : List Str) (p : Str) : Option Str :=
  if optTruthy translate_to && decide (p ∈ vts) then
    some (srtTranslatedPath base (translate_to.getD []) p)
  else none

/-- The embed-map entry written for one transcribed video:
`new_translated[path]` if a target is set and present there, else
`new_original.get(path)`. -/
def transcribeEmbedValue (base : Str) (translate_to : Option Str)
    (vts : List Str) (p : Str) : Option Str :=
  if optTruthy translate_to &&
      (newTranslatedMap base translate_to vts p).isSome then
    newTranslatedMap base translate_to vts p
  else newOriginalMap base vts p

/-- The transcription block of cli.main together with get_subtitles, on
the success path of the collaborators (speech recognition, and — for a
fresh transcription — translation, whose failure modes no claim
exercises).  get_subtitles uses the same base directory as the
classification loop (main passes `output_srt or srt_only` down).  For
every video of the transcription work list it writes the original
artifact and returns its path, and with a target language also the
translated artifact; the final loop fills the embed map. -/
def transcribeAll (base : Str) (translate_to : Option Str) (st : MainState) :
    MainState :=
  let vts := st.videos_to_transcribe
  let st1 := { st with
    subtitles_original := fun q =>
      match newOriginalMap base vts q with
      | some v => some v
      | none => st.subtitles_original q,
    subtitles_translated := fun q =>
      match newTranslatedMap base translate_to vts q with
      | some v => some v
      | none => st.subtitles_translated q }
  vts.foldl (fun s p =>
    { s with embed_map :=
        mapSet s.embed_map p (transcribeEmbedValue base translate_to vts p) })
    st1

/-- cli.main from classification through transcription — the subtitle
production phases that build the embed map — on the success path of the
transcription collaborator. -/
def mainResolve (fs : FSview) (contents : Str → Str)
    (tr : Str → Except PyErr Str) (base : Str) (translate_to : Option Str)
    (videos : List Str) : Except PyErr MainState :=
  match translateExistingAll contents tr
      (classifyAll fs base translate_to videos)
      (classifyAll fs base translate_to videos).translate_existing with
  | .error e => .error e
  | .ok st2 => .ok (transcribeAll base translate_to st2)

/-- Python `a or b` on optional strings (None and the empty string are
falsy). -/
def pyOr (a b : Option Str) : Option Str :=
  match a with
  | some s => if s.isEmpty then b else some s
  | none => b

/-- Truthiness of an optional string (used by the embed loop's
`if not srt_to_embed` test). -/
def truthyOpt (o : Option Str) : Bool :=
  match o with
  | some s => !s.isEmpty
  | none => false

/-- The exception, if any, that a run of the resolve pipeline raised. -/
def resolveErr (r : Except PyErr MainState) : Option PyErr :=
  match r with
  | .error e => some e
  | .ok _ => none

/-- The state of a successful pipeline run (dummy initial state on an
exception). -/
def okState (r : Except PyErr MainState) : MainState :=
  match r with
  | .ok s => s
  | .error _ => initState

/-- The subtitle chosen for one video at embed time:
`embed_map.get(path) or subtitles_translated.get(path) or
subtitles_original.get(path)`. -/
def embedChoice (st : MainState) (p : Str) : Option Str :=
  pyOr (st.embed_map p)
    (pyOr (st.subtitles_translated p) (st.subtitles_original p))

/-- The final embedding loop of cli.main over an abstract muxing
collaborator: a video with no (truthy) subtitle prints an error and
continues; a muxing exception is uncaught and stops the loop, so the
remaining videos are not processed.  Result: the successfully muxed
videos in order, and whether the loop was aborted by an exception. -/
def embedStage (mux : Str → Str → Except Unit Unit)
    (choice : Str → Option Str) : List Str → List Str × Bool
  | [] => ([], false)
  | v :: rest =>
    match choice v with
    | none => embedStage mux choice rest
    | some s =>
      if s.isEmpty then embedStage mux choice rest
      else
        match mux v s with
        | .error _ => ([], true)
        | .ok _ =>
          let r := embedStage mux choice rest
          (v :: r.1, r.2)

/-- Freshness of the original artifact of a video, as computed by
cli.main. -/
def origValid (fs : FSview) (base p : Str) : Bool :=
  artifactValid fs (srtOriginalPath base p) p

/-- Freshness of the translated artifact of a video, as computed by
cli.main (false whenever no target is requested). -/
def transValid (fs : FSview) (base : Str) (translate_to : Option Str)
    (p : Str) : Bool :=
  optTruthy translate_to &&
    artifactValid fs (srtTranslatedPath base (translate_to.getD []) p) p

/-- The classification cli.main gives one video. -/
def classOf (fs : FSview) (base : Str) (translate_to : Option Str)
    (p : Str) : Classification :=
  classify (optTruthy translate_to) (origValid fs base p)
    (transValid fs base translate_to p)

/-! ## Basic lemmas about the string utilities -/

theorem splitChar_ne_nil (sep : Char) (l : Str) : splitChar sep l ≠ [] := by
  cases l with
  | nil => simp [splitChar]
  | cons c cs =>
    simp only [splitChar]
    cases h : splitChar sep cs with
    | nil => simp
    | cons a b => by_cases hc : c = sep <;> simp [hc]

theorem splitChar_not_mem (sep : Char) (l : Str) (h : sep ∉ l) :
    splitChar sep l = [l] := by
  induction l with
  | nil => rfl
  | cons c cs ih =>
    have hc : c ≠ sep := by
      intro e
      exact h (by simp [e])
    have hcs : sep ∉ cs := fun m => h (List.mem_cons_of_mem _ m)
    simp [splitChar, ih hcs, hc]

theorem splitChar_append (sep : Char) (A B : Str) (h : sep ∉ A) :
    splitChar sep (A ++ sep :: B) = A :: splitChar sep B := by
  induction A with
  | nil =>
    simp only [List.nil_append]
    cases heq : splitChar sep B with
    | nil => exact absurd heq (splitChar_ne_nil _ _)
    | cons a b => simp [splitChar, heq]
  | cons c cs ih =>
    have hc : c ≠ sep := by
      intro e
      exact h (by simp [e])
    have hcs : sep ∉ cs := fun m => h (List.mem_cons_of_mem _ m)
    have h2 := ih hcs
    simp only [List.cons_append, splitChar, List.append_eq, h2, hc, if_false]

theorem isDig_cases (c : Char) (h : isDig c = true) :
    c = '0' ∨ c = '1' ∨ c = '2' ∨ c = '3' ∨ c = '4' ∨
    c = '5' ∨ c = '6' ∨ c = '7' ∨ c = '8' ∨ c = '9' := by
  have h2 := h
  simp only [isDig, Bool.or_eq_true, decide_eq_true_eq] at h2
  tauto

/-- A digit character is different from any non-digit character. -/
theorem isDig_ne (c : Char) (h : isDig c = true) (d : Char)
    (hd : isDig d = false) : c ≠ d := by
  intro e
  subst e
  rw [h] at hd
  cases hd

theorem isDig_not_ws (c : Char) (h : isDig c = true) : pyWs c = false := by
  rcases isDig_cases c h with e|e|e|e|e|e|e|e|e|e <;> subst e <;> decide

theorem digitChar_isDig (d : Nat) (h : d < 10) :
    isDig (Nat.digitChar d) = true := by
  interval_cases d <;> decide

theorem digitVal_digitChar (d : Nat) (h : d < 10) :
    digitVal (Nat.digitChar d) = d := by
  interval_cases d <;> decide

theorem natReprAux_all_dig (fuel n : Nat) (h : n < fuel) :
    ∀ c ∈ natReprAux fuel n, isDig c = true := by
  induction fuel generalizing n with
  | zero => omega
  | succ k ih =>
    intro c hc
    simp only [natReprAux] at hc
    by_cases h10 : n < 10
    · simp [h10] at hc
      subst hc
      exact digitChar_isDig n h10
    · simp only [h10, if_false, List.mem_append, List.mem_singleton] at hc
      rcases hc with hc | hc
      · exact ih (n / 10) (by omega) c hc
      · subst hc
        exact digitChar_isDig _ (Nat.mod_lt _ (by omega))

theorem natReprAux_ne_nil (fuel n : Nat) (h : n < fuel) :
    natReprAux fuel n ≠ [] := by
  cases fuel with
  | zero => omega
  | succ k =>
    simp only [natReprAux]
    by_cases h10 : n < 10 <;> simp [h10]

theorem natRepr_all_dig (n : Nat) : ∀ c ∈ natRepr n, isDig c = true :=
  natReprAux_all_dig (n + 1) n (Nat.lt_succ_self n)

theorem natRepr_ne_nil (n : Nat) : natRepr n ≠ [] :=
  natReprAux_ne_nil (n + 1) n (Nat.lt_succ_self n)

theorem parseDigitsAux_append (A B : Str) :
    ∀ acc, parseDigitsAux acc (A ++ B) =
      (parseDigitsAux acc A).bind (fun a => parseDigitsAux a B) := by
  induction A with
  | nil => intro acc; simp [parseDigitsAux]
  | cons c cs ih =>
    intro acc
    by_cases hc : isDig c
    · simp [parseDigitsAux, hc, ih]
    · simp [parseDigitsAux, hc]

theorem parseDigitsAux_natReprAux (fuel n : Nat) (h : n < fuel) :
    ∀ acc, parseDigitsAux acc (natReprAux fuel n) =
      some (acc * 10 ^ (natReprAux fuel n).length + n) := by
  induction fuel generalizing n with
  | zero => omega
  | succ k ih =>
    intro acc
    simp only [natReprAux]
    by_cases h10 : n < 10
    · simp [h10, parseDigitsAux, digitChar_isDig n h10, digitVal_digitChar n h10]
    · simp only [h10, if_false]
      rw [parseDigitsAux_append]
      rw [ih (n / 10) (by omega) acc]
      have hm : n % 10 < 10 := Nat.mod_lt _ (by omega)
      simp only [Option.bind_some, parseDigitsAux, digitChar_isDig _ hm,
        if_true, digitVal_digitChar _ hm, List.length_append,
        List.length_singleton]
      refine congrArg some ?_
      have hq : n / 10 * 10 + n % 10 = n := by omega
      calc (acc * 10 ^ (natReprAux k (n / 10)).length + n / 10) * 10 + n % 10
          = acc * (10 ^ (natReprAux k (n / 10)).length * 10) +
              (n / 10 * 10 + n % 10) := by ring
        _ = acc * 10 ^ ((natReprAux k (n / 10)).length + 1) + n := by
              rw [hq, pow_succ]

theorem parseDigitsAux_replicate_zero (k : Nat) :
    parseDigitsAux 0 (List.replicate k '0') = some 0 := by
  induction k with
  | zero => rfl
  | succ m ih =>
    have h1 : isDig '0' = true := by decide
    have h2 : digitVal '0' = 0 := by decide
    simp [List.replicate_succ, parseDigitsAux, h1, h2, ih]

theorem parseDigits_of_ne_nil (l : Str) (h : l ≠ []) :
    parseDigits l = parseDigitsAux 0 l := by
  cases l with
  | nil => exact absurd rfl h
  | cons a b => rfl

theorem parseDigits_pad_natRepr (w n : Nat) :
    parseDigits (padZero w (natRepr n)) = some n := by
  have hne : padZero w (natRepr n) ≠ [] := by
    unfold padZero
    intro e
    rcases List.append_eq_nil.mp e with ⟨-, h2⟩
    exact natRepr_ne_nil n h2
  rw [parseDigits_of_ne_nil _ hne]
  unfold padZero
  rw [parseDigitsAux_append]
  rw [parseDigitsAux_replicate_zero]
  simp only [Option.some_bind]
  rw [show natRepr n = natReprAux (n + 1) n from rfl]
  rw [parseDigitsAux_natReprAux (n + 1) n (Nat.lt_succ_self n) 0]
  simp

theorem pad_natRepr_all_dig (w n : Nat) :
    ∀ c ∈ padZero w (natRepr n), isDig c = true := by
  intro c hc
  unfold padZero at hc
  rcases List.mem_append.mp hc with h | h
  · rw [List.eq_of_mem_replicate h]; decide
  · exact natRepr_all_dig n c h

theorem dropWhile_eq_self_of_all {p : Char → Bool} {l : Str}
    (h : ∀ c ∈ l, p c = false) : l.dropWhile p = l := by
  cases l with
  | nil => rfl
  | cons c cs => simp [List.dropWhile_cons, h c (by simp)]

theorem pystrip_of_all_non_ws {l : Str} (h : ∀ c ∈ l, pyWs c = false) :
    pystrip l = l := by
  unfold pystrip lstripWs rstripWs
  rw [dropWhile_eq_self_of_all h]
  rw [dropWhile_eq_self_of_all (by intro c hc; exact h c (List.mem_reverse.mp hc))]
  exact List.reverse_reverse l

theorem pyInt_pad_natRepr (w n : Nat) :
    pyInt (padZero w (natRepr n)) = some (n : Int) := by
  have hdig := pad_natRepr_all_dig w n
  have hstrip : pystrip (padZero w (natRepr n)) = padZero w (natRepr n) :=
    pystrip_of_all_non_ws (fun c hc => isDig_not_ws c (hdig c hc))
  unfold pyInt
  rw [hstrip]
  cases hc : padZero w (natRepr n) with
  | nil =>
    exfalso
    have h0 := parseDigits_pad_natRepr w n
    rw [hc] at h0
    exact Option.noConfusion h0
  | cons a b =>
    have ha : isDig a = true := hdig a (by rw [hc]; simp)
    have hm : a ≠ '-' := isDig_ne a ha '-' (by decide)
    have hp : a ≠ '+' := isDig_ne a ha '+' (by decide)
    simp only [List.head?_cons, Option.some.injEq, hm, hp, if_false]
    rw [← hc, parseDigits_pad_natRepr w n]
    rfl

/-- Characters of an encoded timestamp are digits, colons or the comma. -/
theorem format_timestamp_chars (m : Nat) (b : Bool) :
    ∀ c ∈ format_timestamp m b, isDig c = true ∨ c = ':' ∨ c = ',' := by
  intro c hc
  unfold format_timestamp at hc
  simp only [List.mem_append, List.mem_singleton] at hc
  rcases hc with ((((hc | hc) | hc) | hc) | hc) | hc
  · by_cases hb : b || decide (0 < m / 3600000)
    · rw [if_pos hb] at hc
      simp only [List.mem_append, List.mem_singleton] at hc
      rcases hc with hc | hc
      · exact Or.inl (pad_natRepr_all_dig _ _ c hc)
      · exact Or.inr (Or.inl hc)
    · rw [if_neg hb] at hc
      simp at hc
  · exact Or.inl (pad_natRepr_all_dig _ _ c hc)
  · exact Or.inr (Or.inl hc)
  · exact Or.inl (pad_natRepr_all_dig _ _ c hc)
  · exact Or.inr (Or.inr hc)
  · exact Or.inl (pad_natRepr_all_dig _ _ c hc)

/-! ## Arrow and strip lemmas -/

theorem containsArrow_cons (c : Char) (t : Str) (h : containsArrow t = true) :
    containsArrow (c :: t) = true := by
  rw [containsArrow.eq_def]
  split
  · rename_i heq
    exact absurd heq (by simp)
  · rfl
  · rename_i c' rest heq
    injection heq with h1 h2
    subst h2
    exact h

theorem containsArrow_append_left (A B : Str) (h : containsArrow B = true) :
    containsArrow (A ++ B) = true := by
  induction A with
  | nil => simpa using h
  | cons c cs ih => exact containsArrow_cons c (cs ++ B) ih

theorem containsArrow_arrow (A B : Str) :
    containsArrow (A ++ '-' :: '-' :: '>' :: B) = true := by
  apply containsArrow_append_left
  rw [containsArrow.eq_def]
  rfl

theorem containsArrow_append_right (A B : Str) (h : containsArrow A = true) :
    containsArrow (A ++ B) = true := by
  induction A with
  | nil => simp [containsArrow] at h
  | cons c cs ih =>
    rw [containsArrow.eq_def] at h
    revert h
    split
    · rename_i heq
      exact absurd heq (by simp)
    · rename_i r heq
      intro _
      injection heq with h1 h2
      subst h1
      subst h2
      exact containsArrow_arrow [] _
    · rename_i c' rest heq
      intro h
      injection heq with h1 h2
      subst h1
      subst h2
      exact containsArrow_cons _ _ (ih h)

theorem containsArrow_false_of_no_dash (l : Str) (h : ('-' : Char) ∉ l) :
    containsArrow l = false := by
  induction l with
  | nil => rfl
  | cons c cs ih =>
    have hc : c ≠ '-' := by
      intro e
      exact h (by simp [e])
    have hcs : ('-' : Char) ∉ cs := fun m => h (List.mem_cons_of_mem _ m)
    rw [containsArrow.eq_def]
    split
    · rename_i heq
      exact absurd heq (by simp)
    · rename_i r heq
      injection heq with h1 h2
      exact absurd h1 hc
    · rename_i c' rest heq
      injection heq with h1 h2
      subst h2
      exact ih hcs

theorem splitArrow_ne_nil (l : Str) : splitArrow l ≠ [] := by
  rw [splitArrow.eq_def]
  split
  · simp
  · simp
  · rename_i c rest heq
    cases h : splitArrow rest <;> simp

theorem splitArrow_no_dash (l : Str) (h : ('-' : Char) ∉ l) :
    splitArrow l = [l] := by
  induction l with
  | nil => rfl
  | cons c cs ih =>
    have hc : c ≠ '-' := by
      intro e
      exact h (by simp [e])
    have hcs : ('-' : Char) ∉ cs := fun m => h (List.mem_cons_of_mem _ m)
    rw [splitArrow.eq_def]
    split
    · rename_i heq
      exact absurd heq (by simp)
    · rename_i r heq
      injection heq with h1 h2
      exact absurd h1 hc
    · rename_i c' rest heq
      injection heq with h1 h2
      subst h1
      subst h2
      rw [ih hcs]

theorem splitArrow_append (A B : Str) (h : ('-' : Char) ∉ A) :
    splitArrow (A ++ '-' :: '-' :: '>' :: B) = A :: splitArrow B := by
  induction A with
  | nil =>
    simp only [List.nil_append]
    rw [splitArrow.eq_def]
    rfl
  | cons c cs ih =>
    have hc : c ≠ '-' := by
      intro e
      exact h (by simp [e])
    have hcs : ('-' : Char) ∉ cs := fun m => h (List.mem_cons_of_mem _ m)
    have h2 := ih hcs
    simp only [List.cons_append]
    rw [splitArrow.eq_def]
    split
    · rename_i heq
      exact absurd heq (by simp)
    · rename_i r heq
      injection heq with h1 h2
      exact absurd h1 hc
    · rename_i c' rest heq
      injection heq with h1 h3
      subst h1
      rw [← h3, h2]

theorem containsArrow_cons_false (c : Char) (t : Str)
    (h : containsArrow (c :: t) = false) : containsArrow t = false := by
  by_contra hne
  rw [containsArrow_cons c t (by simpa using hne)] at h
  cases h

theorem replaceArrow_of_not_contains (l : Str) (h : containsArrow l = false) :
    replaceArrow l = l := by
  induction l with
  | nil => rfl
  | cons c cs ih =>
    rw [replaceArrow.eq_def]
    split
    · rename_i heq
      exact absurd heq (by simp)
    · rename_i r heq
      exfalso
      have htrue : containsArrow ('-' :: '-' :: '>' :: r) = true :=
        containsArrow_arrow [] r
      rw [← heq, h] at htrue
      cases htrue
    · rename_i c' rest heq
      injection heq with h1 h2
      subst h1
      subst h2
      rw [ih (containsArrow_cons_false _ _ h)]

theorem mem_pystrip (a : Char) (l : Str) (h : a ∈ pystrip l) : a ∈ l := by
  unfold pystrip rstripWs lstripWs at h
  have h1 : a ∈ (l.dropWhile pyWs).reverse.dropWhile pyWs :=
    List.mem_reverse.mp h
  have h2 : a ∈ (l.dropWhile pyWs).reverse :=
    (List.dropWhile_sublist pyWs).mem h1
  have h3 : a ∈ l.dropWhile pyWs := List.mem_reverse.mp h2
  exact (List.dropWhile_sublist pyWs).mem h3

theorem dropWhile_idem (p : Char → Bool) (l : Str) :
    (l.dropWhile p).dropWhile p = l.dropWhile p := by
  induction l with
  | nil => rfl
  | cons c cs ih =>
    rw [List.dropWhile_cons]
    by_cases hc : p c
    · simpa [hc] using ih
    · simp [hc, List.dropWhile_cons]

theorem lstripWs_of_all {l : Str} (h : ∀ c ∈ l, pyWs c = false) :
    lstripWs l = l := dropWhile_eq_self_of_all h

theorem rstripWs_of_all {l : Str} (h : ∀ c ∈ l, pyWs c = false) :
    rstripWs l = l := by
  unfold rstripWs
  rw [dropWhile_eq_self_of_all (by intro c hc; exact h c (List.mem_reverse.mp hc))]
  exact List.reverse_reverse l

theorem rstripWs_append_exists (s : Str) : ∃ t, s = rstripWs s ++ t := by
  refine ⟨(s.reverse.takeWhile pyWs).reverse, ?_⟩
  conv_lhs => rw [← List.reverse_reverse s,
    ← List.takeWhile_append_dropWhile (p := pyWs) (l := s.reverse)]
  rw [List.reverse_append]
  rfl

theorem lstripWs_decomp (l : Str) : l = l.takeWhile pyWs ++ lstripWs l :=
  (List.takeWhile_append_dropWhile pyWs l).symm

theorem containsArrow_pystrip (l : Str) (h : containsArrow (pystrip l) = true) :
    containsArrow l = true := by
  obtain ⟨t, ht⟩ := rstripWs_append_exists (lstripWs l)
  have h1 : containsArrow (lstripWs l) = true := by
    rw [ht]
    exact containsArrow_append_right _ _ h
  rw [lstripWs_decomp l]
  exact containsArrow_append_left _ _ h1

theorem lstripWs_prefix (u v t : Str) (hu : lstripWs u = u) (hv : u = v ++ t) :
    lstripWs v = v := by
  cases v with
  | nil => rfl
  | cons c cs =>
    have hc : pyWs c = false := by
      by_contra hcc
      have hcc2 : pyWs c = true := by simpa using hcc
      subst hv
      unfold lstripWs at hu
      rw [List.cons_append, List.dropWhile_cons, hcc2, if_pos rfl] at hu
      have hlen := (List.dropWhile_sublist (l := cs ++ t) pyWs).length_le
      rw [hu] at hlen
      simp at hlen
    unfold lstripWs
    rw [List.dropWhile_cons, hc]
    simp

theorem pystrip_idem (l : Str) : pystrip (pystrip l) = pystrip l := by
  show rstripWs (lstripWs (rstripWs (lstripWs l))) = rstripWs (lstripWs l)
  have hu : lstripWs (lstripWs l) = lstripWs l := dropWhile_idem pyWs l
  obtain ⟨t, ht⟩ := rstripWs_append_exists (lstripWs l)
  have h1 : lstripWs (rstripWs (lstripWs l)) = rstripWs (lstripWs l) :=
    lstripWs_prefix (lstripWs l) _ t hu ht
  rw [h1]
  show ((((lstripWs l).reverse.dropWhile pyWs).reverse).reverse.dropWhile pyWs).reverse
    = rstripWs (lstripWs l)
  rw [List.reverse_reverse, dropWhile_idem]
  rfl

theorem pystrip_ne_nil (l : Str) (c : Char) (hc : c ∈ l)
    (hw : pyWs c = false) : pystrip l ≠ [] := by
  intro hnil
  have hcl : c ∈ lstripWs l := by
    have := lstripWs_decomp l
    rcases List.mem_append.mp (this ▸ hc) with h | h
    · rw [List.mem_takeWhile_imp h] at hw
      cases hw
    · exact h
  unfold pystrip rstripWs at hnil
  have h2 : (lstripWs l).reverse.dropWhile pyWs = [] := by
    have := congrArg List.reverse hnil
    simpa using this
  have h3 := List.dropWhile_eq_nil_iff.mp h2 c (List.mem_reverse.mpr hcl)
  rw [hw] at h3
  cases h3

theorem pystrip_append_space (l : Str) (h : ∀ c ∈ l, pyWs c = false) :
    pystrip (l ++ [' ']) = l := by
  cases l with
  | nil => rfl
  | cons c cs =>
    have hc : pyWs c = false := h c (by simp)
    show rstripWs (lstripWs ((c :: cs) ++ [' '])) = c :: cs
    unfold lstripWs
    rw [List.cons_append, List.dropWhile_cons, hc]
    simp only [Bool.false_eq_true, if_false]
    unfold rstripWs
    rw [show (c :: (cs ++ [' '])).reverse = ' ' :: (c :: cs).reverse by simp]
    rw [List.dropWhile_cons, show pyWs ' ' = true from rfl, if_pos rfl]
    rw [dropWhile_eq_self_of_all (by
      intro x hx
      exact h x (List.mem_reverse.mp hx))]
    exact List.reverse_reverse _

theorem pystrip_cons_space (l : Str) (h : ∀ c ∈ l, pyWs c = false) :
    pystrip (' ' :: l) = l := by
  show rstripWs (lstripWs (' ' :: l)) = l
  unfold lstripWs
  rw [List.dropWhile_cons, show pyWs ' ' = true from rfl, if_pos rfl]
  rw [dropWhile_eq_self_of_all h]
  exact rstripWs_of_all h

/-- Core round-trip fact: parsing an hour-included encoding recovers the
millisecond total. -/
theorem parse_format_timestamp (m : Nat) :
    parse_timestamp (format_timestamp m true) = some (m : Int) := by
  have hsplit1 : format_timestamp m true =
      (padZero 2 (natRepr (m / 3600000)) ++ ':' ::
        (padZero 2 (natRepr (m % 3600000 / 60000)) ++ ':' ::
          padZero 2 (natRepr (m % 3600000 % 60000 / 1000)))) ++ ',' ::
        padZero 3 (natRepr (m % 3600000 % 60000 % 1000)) := by
    unfold format_timestamp
    simp
  have hA : (',' : Char) ∉ padZero 2 (natRepr (m / 3600000)) ++ ':' ::
      (padZero 2 (natRepr (m % 3600000 / 60000)) ++ ':' ::
        padZero 2 (natRepr (m % 3600000 % 60000 / 1000))) := by
    intro hmem
    simp only [List.mem_append, List.mem_cons] at hmem
    rcases hmem with h | h | h | h | h
    · exact isDig_ne _ (pad_natRepr_all_dig _ _ _ h) ',' (by decide) rfl
    · cases h
    · exact isDig_ne _ (pad_natRepr_all_dig _ _ _ h) ',' (by decide) rfl
    · cases h
    · exact isDig_ne _ (pad_natRepr_all_dig _ _ _ h) ',' (by decide) rfl
  have hB : (',' : Char) ∉ padZero 3 (natRepr (m % 3600000 % 60000 % 1000)) := by
    intro hmem
    exact isDig_ne _ (pad_natRepr_all_dig _ _ _ hmem) ',' (by decide) rfl
  have hC1 : (':' : Char) ∉ padZero 2 (natRepr (m / 3600000)) := by
    intro hmem
    exact isDig_ne _ (pad_natRepr_all_dig _ _ _ hmem) ':' (by decide) rfl
  have hC2 : (':' : Char) ∉ padZero 2 (natRepr (m % 3600000 / 60000)) := by
    intro hmem
    exact isDig_ne _ (pad_natRepr_all_dig _ _ _ hmem) ':' (by decide) rfl
  have hC3 : (':' : Char) ∉ padZero 2 (natRepr (m % 3600000 % 60000 / 1000)) := by
    intro hmem
    exact isDig_ne _ (pad_natRepr_all_dig _ _ _ hmem) ':' (by decide) rfl
  unfold parse_timestamp
  rw [hsplit1, splitChar_append ',' _ _ hA, splitChar_not_mem ',' _ hB]
  simp only [unpack2, Option.some_bind]
  rw [splitChar_append ':' _ _ hC1]
  rw [splitChar_append ':' _ _ hC2, splitChar_not_mem ':' _ hC3]
  simp only [unpack3, Option.some_bind, pyInt_pad_natRepr, Option.map_some']
  refine congrArg some ?_
  push_cast
  omega

/-! ## Resolver characterization -/

theorem classifyStep_vtt (fs : FSview) (base : Str) (tto : Option Str)
    (st : MainState) (p : Str) :
    (classifyStep fs base tto st p).videos_to_transcribe =
      st.videos_to_transcribe ++
        (if classOf fs base tto p = .TranscribeFresh then [p] else []) := by
  unfold classifyStep classOf classify origValid transValid
  by_cases h1 : optTruthy tto <;>
    by_cases h2 : artifactValid fs (srtOriginalPath base p) p <;>
      by_cases h3 : artifactValid fs (srtTranslatedPath base (tto.getD []) p) p <;>
        simp [h1, h2, h3]

theorem classifyStep_te (fs : FSview) (base : Str) (tto : Option Str)
    (st : MainState) (p : Str) :
    (classifyStep fs base tto st p).translate_existing =
      st.translate_existing ++
        (if classOf fs base tto p = .TranslateExisting then
          [(p, srtOriginalPath base p, srtTranslatedPath base (tto.getD []) p)]
         else []) := by
  unfold classifyStep classOf classify origValid transValid
  by_cases h1 : optTruthy tto <;>
    by_cases h2 : artifactValid fs (srtOriginalPath base p) p <;>
      by_cases h3 : artifactValid fs (srtTranslatedPath base (tto.getD []) p) p <;>
        simp [h1, h2, h3]

theorem classifyStep_embed (fs : FSview) (base : Str) (tto : Option Str)
    (st : MainState) (p q : Str) :
    (classifyStep fs base tto st p).embed_map q =
      if q = p ∧ classOf fs base tto p = .ReuseTranslated then
        some (srtTranslatedPath base (tto.getD []) p)
      else if q = p ∧ classOf fs base tto p = .ReuseOriginal then
        some (srtOriginalPath base p)
      else st.embed_map q := by
  unfold classifyStep classOf classify origValid transValid mapSet
  by_cases h1 : optTruthy tto <;>
    by_cases h2 : artifactValid fs (srtOriginalPath base p) p <;>
      by_cases h3 : artifactValid fs (srtTranslatedPath base (tto.getD []) p) p <;>
        by_cases hq : q = p <;>
          simp [h1, h2, h3, hq]

theorem classifyStep_so (fs : FSview) (base : Str) (tto : Option Str)
    (st : MainState) (p q : Str) :
    (classifyStep fs base tto st p).subtitles_original q =
      if q = p ∧ origValid fs base p = true then some (srtOriginalPath base p)
      else st.subtitles_original q := by
  unfold classifyStep origValid mapSet
  by_cases h1 : optTruthy tto <;>
    by_cases h2 : artifactValid fs (srtOriginalPath base p) p <;>
      by_cases h3 : artifactValid fs (srtTranslatedPath base (tto.getD []) p) p <;>
        by_cases hq : q = p <;>
          simp [h1, h2, h3, hq]

theorem classifyStep_st (fs : FSview) (base : Str) (tto : Option Str)
    (st : MainState) (p q : Str) :
    (classifyStep fs base tto st p).subtitles_translated q =
      if q = p ∧ transValid fs base tto p = true then
        some (srtTranslatedPath base (tto.getD []) p)
      else st.subtitles_translated q := by
  unfold classifyStep transValid mapSet
  by_cases h1 : optTruthy tto <;>
    by_cases h2 : artifactValid fs (srtOriginalPath base p) p <;>
      by_cases h3 : artifactValid fs (srtTranslatedPath base (tto.getD []) p) p <;>
        by_cases hq : q = p <;>
          simp [h1, h2, h3, hq]

theorem classifyAll_aux_vtt (fs : FSview) (base : Str) (tto : Option Str) :
    ∀ (videos : List Str) (st : MainState) (q : Str),
      (q ∈ (videos.foldl (classifyStep fs base tto) st).videos_to_transcribe ↔
        q ∈ st.videos_to_transcribe ∨
          (q ∈ videos ∧ classOf fs base tto q = .TranscribeFresh)) := by
  intro videos
  induction videos with
  | nil => intro st q; simp
  | cons v vs ih =>
    intro st q
    rw [List.foldl_cons, ih, classifyStep_vtt]
    by_cases hc : classOf fs base tto v = .TranscribeFresh <;>
      by_cases hqv : q = v <;>
        simp [hc, hqv, List.mem_append] <;> tauto

theorem classifyAll_aux_te (fs : FSview) (base : Str) (tto : Option Str) :
    ∀ (videos : List Str) (st : MainState) (x : Str × Str × Str),
      (x ∈ (videos.foldl (classifyStep fs base tto) st).translate_existing ↔
        x ∈ st.translate_existing ∨
          (x.1 ∈ videos ∧ classOf fs base tto x.1 = .TranslateExisting ∧
            x.2.1 = srtOriginalPath base x.1 ∧
            x.2.2 = srtTranslatedPath base (tto.getD []) x.1)) := by
  intro videos
  induction videos with
  | nil => intro st x; simp
  | cons v vs ih =>
    intro st x
    obtain ⟨p, s, d⟩ := x
    rw [List.foldl_cons, ih, classifyStep_te]
    by_cases hc : classOf fs base tto v = .TranslateExisting <;>
      by_cases hqv : p = v <;>
        simp [hc, hqv, List.mem_append, Prod.ext_iff] <;> tauto

theorem classifyAll_aux_embed (fs : FSview) (base : Str) (tto : Option Str) :
    ∀ (videos : List Str) (st : MainState) (q : Str),
      (videos.foldl (classifyStep fs base tto) st).embed_map q =
        if q ∈ videos ∧ classOf fs base tto q = .ReuseTranslated then
          some (srtTranslatedPath base (tto.getD []) q)
        else if q ∈ videos ∧ classOf fs base tto q = .ReuseOriginal then
          some (srtOriginalPath base q)
        else st.embed_map q := by
  intro videos
  induction videos with
  | nil => intro st q; simp
  | cons v vs ih =>
    intro st q
    rw [List.foldl_cons, ih, classifyStep_embed]
    by_cases h1 : q = v <;>
      by_cases h2 : q ∈ vs <;>
        by_cases h3 : classOf fs base tto q = .ReuseTranslated <;>
          by_cases h4 : classOf fs base tto q = .ReuseOriginal <;>
            simp_all

theorem classifyAll_aux_so (fs : FSview) (base : Str) (tto : Option Str) :
    ∀ (videos : List Str) (st : MainState) (q : Str),
      (videos.foldl (classifyStep fs base tto) st).subtitles_original q =
        if q ∈ videos ∧ origValid fs base q = true then
          some (srtOriginalPath base q)
        else st.subtitles_original q := by
  intro videos
  induction videos with
  | nil => intro st q; simp
  | cons v vs ih =>
    intro st q
    rw [List.foldl_cons, ih, classifyStep_so]
    by_cases h1 : q = v <;>
      by_cases h2 : q ∈ vs <;>
        by_cases h3 : origValid fs base q = true <;>
          simp_all

theorem classifyAll_aux_st (fs : FSview) (base : Str) (tto : Option Str) :
    ∀ (videos : List Str) (st : MainState) (q : Str),
      (videos.foldl (classifyStep fs base tto) st).subtitles_translated q =
        if q ∈ videos ∧ transValid fs base tto q = true then
          some (srtTranslatedPath base (tto.getD []) q)
        else st.subtitles_translated q := by
  intro videos
  induction videos with
  | nil => intro st q; simp
  | cons v vs ih =>
    intro st q
    rw [List.foldl_cons, ih, classifyStep_st]
    by_cases h1 : q = v <;>
      by_cases h2 : q ∈ vs <;>
        by_cases h3 : transValid fs base tto q = true <;>
          simp_all

theorem classifyAll_vtt (fs : FSview) (base : Str) (tto : Option Str)
    (videos : List Str) (q : Str) :
    (q ∈ (classifyAll fs base tto videos).videos_to_transcribe ↔
      q ∈ videos ∧ classOf fs base tto q = .TranscribeFresh) := by
  unfold classifyAll
  rw [classifyAll_aux_vtt]
  simp [initState]

theorem classifyAll_te (fs : FSview) (base : Str) (tto : Option Str)
    (videos : List Str) (x : Str × Str × Str) :
    (x ∈ (classifyAll fs base tto videos).translate_existing ↔
      x.1 ∈ videos ∧ classOf fs base tto x.1 = .TranslateExisting ∧
        x.2.1 = srtOriginalPath base x.1 ∧
        x.2.2 = srtTranslatedPath base (tto.getD []) x.1) := by
  unfold classifyAll
  rw [classifyAll_aux_te]
  simp [initState]

theorem classifyAll_embed (fs : FSview) (base : Str) (tto : Option Str)
    (videos : List Str) (q : Str) :
    (classifyAll fs base tto videos).embed_map q =
      if q ∈ videos ∧ classOf fs base tto q = .ReuseTranslated then
        some (srtTranslatedPath base (tto.getD []) q)
      else if q ∈ videos ∧ classOf fs base tto q = .ReuseOriginal then
        some (srtOriginalPath base q)
      else none := by
  unfold classifyAll
  rw [classifyAll_aux_embed]
  simp [initState]

theorem classifyAll_so (fs : FSview) (base : Str) (tto : Option Str)
    (videos : List Str) (q : Str) :
    (classifyAll fs base tto videos).subtitles_original q =
      if q ∈ videos ∧ origValid fs base q = true then
        some (srtOriginalPath base q)
      else none := by
  unfold classifyAll
  rw [classifyAll_aux_so]
  simp [initState]

theorem classifyAll_st (fs : FSview) (base : Str) (tto : Option Str)
    (videos : List Str) (q : Str) :
    (classifyAll fs base tto videos).subtitles_translated q =
      if q ∈ videos ∧ transValid fs base tto q = true then
        some (srtTranslatedPath base (tto.getD []) q)
      else none := by
  unfold classifyAll
  rw [classifyAll_aux_st]
  simp [initState]

theorem pyJoin_ne_nil (a b : Str) (hb : b ≠ []) : pyJoin a b ≠ [] := by
  unfold pyJoin
  split_ifs <;> simp [hb]

theorem srtOriginalPath_ne_nil (base p : Str) : srtOriginalPath base p ≠ [] := by
  unfold srtOriginalPath
  apply pyJoin_ne_nil
  intro h
  rcases List.append_eq_nil.mp h with ⟨-, h2⟩
  exact absurd h2 (by decide)

theorem srtTranslatedPath_ne_nil (base tgt p : Str) :
    srtTranslatedPath base tgt p ≠ [] := by
  unfold srtTranslatedPath
  apply pyJoin_ne_nil
  simp

theorem translateExistingStep_err (contents : Str → Str)
    (tr : Str → Except PyErr Str) (st : MainState) (x : Str × Str × Str)
    (e : PyErr) (htsf : translate_srt_file (contents x.2.1) tr = .error e) :
    translateExistingStep contents tr st x = .error e := by
  unfold translateExistingStep
  rw [htsf]

theorem translateExistingStep_ok (contents : Str → Str)
    (tr : Str → Except PyErr Str) (st : MainState) (x : Str × Str × Str)
    (w : Str) (htsf : translate_srt_file (contents x.2.1) tr = .ok w)
    (hne : x.2.2.isEmpty = false) :
    translateExistingStep contents tr st x =
      .ok { st with
        subtitles_translated := mapSet st.subtitles_translated x.1 (some x.2.2),
        embed_map := mapSet st.embed_map x.1 (some x.2.2) } := by
  unfold translateExistingStep
  rw [htsf]
  simp [hne]

theorem translateExistingAll_ok (contents : Str → Str)
    (tr : Str → Except PyErr Str) (base tgt : Str) :
    ∀ (items : List (Str × Str × Str)) (st st' : MainState),
      (∀ x ∈ items, x.2.2 = srtTranslatedPath base tgt x.1) →
      translateExistingAll contents tr st items = .ok st' →
      (st'.videos_to_transcribe = st.videos_to_transcribe ∧
       st'.translate_existing = st.translate_existing ∧
       (∀ q, st'.subtitles_original q = st.subtitles_original q) ∧
       (∀ q, st'.subtitles_translated q =
          if q ∈ items.map (fun x => x.1) then
            some (srtTranslatedPath base tgt q)
          else st.subtitles_translated q) ∧
       (∀ q, st'.embed_map q =
          if q ∈ items.map (fun x => x.1) then
            some (srtTranslatedPath base tgt q)
          else st.embed_map q)) := by
  intro items
  induction items with
  | nil =>
    intro st st' hsh hok
    unfold translateExistingAll at hok
    simp only [List.foldlM_nil] at hok
    have hst : st = st' := by
      have : (pure st : Except PyErr MainState) = .ok st := rfl
      rw [this] at hok
      exact Except.ok.inj hok
    subst hst
    simp
  | cons x xs ih =>
    intro st st' hsh hok
    unfold translateExistingAll at hok
    rw [List.foldlM_cons] at hok
    cases htsf : translate_srt_file (contents x.2.1) tr with
    | error e =>
      rw [translateExistingStep_err contents tr st x e htsf] at hok
      simp [Bind.bind, Except.bind] at hok
    | ok w =>
      have hne : x.2.2.isEmpty = false := by
        rw [hsh x (by simp)]
        simpa using srtTranslatedPath_ne_nil base tgt x.1
      rw [translateExistingStep_ok contents tr st x w htsf hne] at hok
      have hok2 : List.foldlM (translateExistingStep contents tr)
          { st with
            subtitles_translated :=
              mapSet st.subtitles_translated x.1 (some x.2.2),
            embed_map := mapSet st.embed_map x.1 (some x.2.2) } xs = .ok st' := by
        simpa [Bind.bind, Except.bind] using hok
      have hxs : ∀ y ∈ xs, y.2.2 = srtTranslatedPath base tgt y.1 :=
        fun y hy => hsh y (by simp [hy])
      obtain ⟨h1, h2, h3, h4, h5⟩ := ih _ st' hxs hok2
      have hx22 : x.2.2 = srtTranslatedPath base tgt x.1 := hsh x (by simp)
      refine ⟨by simpa using h1, by simpa using h2, ?_, ?_, ?_⟩
      · intro q
        simpa using h3 q
      · intro q
        rw [h4 q]
        by_cases hq1 : q ∈ xs.map (fun y => y.1) <;>
          by_cases hq2 : q = x.1 <;>
            simp [hq1, hq2, mapSet, hx22]
      · intro q
        rw [h5 q]
        by_cases hq1 : q ∈ xs.map (fun y => y.1) <;>
          by_cases hq2 : q = x.1 <;>
            simp [hq1, hq2, mapSet, hx22]

theorem foldl_embed_fields (f : Str → Option Str) :
    ∀ (vts : List Str) (s : MainState),
      ((vts.foldl (fun s p =>
          { s with embed_map := mapSet s.embed_map p (f p) }) s).subtitles_original
          = s.subtitles_original ∧
       (vts.foldl (fun s p =>
          { s with embed_map := mapSet s.embed_map p (f p) }) s).subtitles_translated
          = s.subtitles_translated ∧
       (vts.foldl (fun s p =>
          { s with embed_map := mapSet s.embed_map p (f p) }) s).videos_to_transcribe
          = s.videos_to_transcribe ∧
       (vts.foldl (fun s p =>
          { s with embed_map := mapSet s.embed_map p (f p) }) s).translate_existing
          = s.translate_existing) := by
  intro vts
  induction vts with
  | nil => intro s; simp
  | cons v vs ih =>
    intro s
    rw [List.foldl_cons]
    exact ih _

theorem foldl_embed_val (f : Str → Option Str) :
    ∀ (vts : List Str) (s : MainState) (q : Str),
      (vts.foldl (fun s p =>
          { s with embed_map := mapSet s.embed_map p (f p) }) s).embed_map q =
        if q ∈ vts then f q else s.embed_map q := by
  intro vts
  induction vts with
  | nil => intro s q; simp
  | cons v vs ih =>
    intro s q
    rw [List.foldl_cons, ih]
    by_cases hq : q = v <;>
      by_cases hqs : q ∈ vs <;>
        simp [mapSet, hq, hqs]

theorem transcribeAll_vtt (base : Str) (tto : Option Str) (st : MainState) :
    (transcribeAll base tto st).videos_to_transcribe =
      st.videos_to_transcribe := by
  simp only [transcribeAll]
  rw [(foldl_embed_fields _ _ _).2.2.1]

theorem transcribeAll_te (base : Str) (tto : Option Str) (st : MainState) :
    (transcribeAll base tto st).translate_existing =
      st.translate_existing := by
  simp only [transcribeAll]
  rw [(foldl_embed_fields _ _ _).2.2.2]

theorem transcribeAll_so (base : Str) (tto : Option Str) (st : MainState)
    (q : Str) :
    (transcribeAll base tto st).subtitles_original q =
      if q ∈ st.videos_to_transcribe then some (srtOriginalPath base q)
      else st.subtitles_original q := by
  simp only [transcribeAll]
  rw [(foldl_embed_fields _ _ _).1]
  by_cases hq : q ∈ st.videos_to_transcribe <;> simp [newOriginalMap, hq]

theorem transcribeAll_st (base : Str) (tto : Option Str) (st : MainState)
    (q : Str) :
    (transcribeAll base tto st).subtitles_translated q =
      if optTruthy tto = true ∧ q ∈ st.videos_to_transcribe then
        some (srtTranslatedPath base (tto.getD []) q)
      else st.subtitles_translated q := by
  simp only [transcribeAll]
  rw [(foldl_embed_fields _ _ _).2.1]
  by_cases h1 : optTruthy tto = true <;>
    by_cases hq : q ∈ st.videos_to_transcribe <;>
      simp [newTranslatedMap, h1, hq]

theorem transcribeAll_embed (base : Str) (tto : Option Str) (st : MainState)
    (q : Str) :
    (transcribeAll base tto st).embed_map q =
      if q ∈ st.videos_to_transcribe then
        (if optTruthy tto = true then
          some (srtTranslatedPath base (tto.getD []) q)
         else some (srtOriginalPath base q))
      else st.embed_map q := by
  simp only [transcribeAll]
  rw [foldl_embed_val]
  by_cases h1 : optTruthy tto = true <;>
    by_cases hq : q ∈ st.videos_to_transcribe <;>
      simp [transcribeEmbedValue, newTranslatedMap, newOriginalMap, h1, hq]

theorem classOf_TF (fs : FSview) (base : Str) (tto : Option Str) (q : Str) :
    (classOf fs base tto q = .TranscribeFresh ↔
      origValid fs base q = false ∧ transValid fs base tto q = false) := by
  unfold classOf classify transValid
  by_cases h1 : optTruthy tto <;>
    by_cases h2 : origValid fs base q <;>
      by_cases h3 : artifactValid fs (srtTranslatedPath base (tto.getD []) q) q <;>
        simp [h1, h2, h3]

theorem classOf_RT (fs : FSview) (base : Str) (tto : Option Str) (q : Str) :
    (classOf fs base tto q = .ReuseTranslated ↔
      transValid fs base tto q = true) := by
  unfold classOf classify transValid
  by_cases h1 : optTruthy tto <;>
    by_cases h2 : origValid fs base q <;>
      by_cases h3 : artifactValid fs (srtTranslatedPath base (tto.getD []) q) q <;>
        simp [h1, h2, h3]

theorem classOf_TE (fs : FSview) (base : Str) (tto : Option Str) (q : Str) :
    (classOf fs base tto q = .TranslateExisting ↔
      optTruthy tto = true ∧ origValid fs base q = true ∧
        transValid fs base tto q = false) := by
  unfold classOf classify transValid
  by_cases h1 : optTruthy tto <;>
    by_cases h2 : origValid fs base q <;>
      by_cases h3 : artifactValid fs (srtTranslatedPath base (tto.getD []) q) q <;>
        simp [h1, h2, h3]

theorem classOf_RO (fs : FSview) (base : Str) (tto : Option Str) (q : Str) :
    (classOf fs base tto q = .ReuseOriginal ↔
      optTruthy tto = false ∧ origValid fs base q = true) := by
  unfold classOf classify transValid
  by_cases h1 : optTruthy tto <;>
    by_cases h2 : origValid fs base q <;>
      by_cases h3 : artifactValid fs (srtTranslatedPath base (tto.getD []) q) q <;>
        simp [h1, h2, h3]

theorem mainResolve_ok_char (fs : FSview) (contents : Str → Str)
    (tr : Str → Except PyErr Str) (base : Str) (tto : Option Str)
    (videos : List Str) (st : MainState)
    (hok : mainResolve fs contents tr base tto videos = .ok st) :
    (∀ q, st.subtitles_original q =
      if q ∈ videos ∧ (origValid fs base q = true ∨
          classOf fs base tto q = .TranscribeFresh) then
        some (srtOriginalPath base q)
      else none) ∧
    (∀ q, st.subtitles_translated q =
      if q ∈ videos ∧ optTruthy tto = true then
        some (srtTranslatedPath base (tto.getD []) q)
      else none) ∧
    (∀ q, st.embed_map q =
      if q ∈ videos then
        some (if optTruthy tto = true then
            srtTranslatedPath base (tto.getD []) q
          else srtOriginalPath base q)
      else none) := by
  unfold mainResolve at hok
  set st1 := classifyAll fs base tto videos with hst1
  cases hTE : translateExistingAll contents tr st1 st1.translate_existing with
  | error e =>
    rw [hTE] at hok
    exact Except.noConfusion hok
  | ok st2 =>
    rw [hTE] at hok
    have hst : st = transcribeAll base tto st2 := (Except.ok.inj hok).symm
    subst hst
    have hshape : ∀ x ∈ st1.translate_existing,
        x.2.2 = srtTranslatedPath base (tto.getD []) x.1 := by
      intro x hx
      exact ((classifyAll_te fs base tto videos x).mp hx).2.2.2
    obtain ⟨hvtt, hte, hso, hstl, hem⟩ :=
      translateExistingAll_ok contents tr base (tto.getD []) _ st1 st2 hshape hTE
    have hmapTE : ∀ q,
        (q ∈ st1.translate_existing.map (fun x => x.1) ↔
          q ∈ videos ∧ classOf fs base tto q = .TranslateExisting) := by
      intro q
      simp only [List.mem_map]
      constructor
      · rintro ⟨x, hx, rfl⟩
        have h := (classifyAll_te fs base tto videos x).mp hx
        exact ⟨h.1, h.2.1⟩
      · rintro ⟨hq, hcls⟩
        refine ⟨(q, srtOriginalPath base q,
          srtTranslatedPath base (tto.getD []) q), ?_, rfl⟩
        exact (classifyAll_te fs base tto videos _).mpr ⟨hq, hcls, rfl, rfl⟩
    have hvtsmem : ∀ q, (q ∈ st2.videos_to_transcribe ↔
        q ∈ videos ∧ (origValid fs base q = false ∧
          transValid fs base tto q = false)) := by
      intro q
      rw [hvtt]
      rw [classifyAll_vtt fs base tto videos q, classOf_TF]
    have htv_tt : ∀ q, transValid fs base tto q = true →
        optTruthy tto = true := by
      intro q h
      unfold transValid at h
      exact (Bool.and_eq_true_iff.mp h).1
    refine ⟨?_, ?_, ?_⟩
    · intro q
      rw [transcribeAll_so, hso q, classifyAll_so]
      have hvts := hvtsmem q
      by_cases hq : q ∈ videos <;>
        by_cases hov : origValid fs base q = true <;>
          by_cases htv : transValid fs base tto q = true <;>
            simp only [hq, hov, htv] at hvts <;>
              simp [hvts, hq, hov, htv, classOf_TF]
    · intro q
      rw [transcribeAll_st, hstl q, classifyAll_st]
      have hvts := hvtsmem q
      have hmap := hmapTE q
      rw [classOf_TE] at hmap
      by_cases hq : q ∈ videos <;>
        by_cases hov : origValid fs base q = true <;>
          by_cases htv : transValid fs base tto q = true <;>
            by_cases htt : optTruthy tto = true <;>
              first
              | (exact absurd (htv_tt q htv) htt)
              | (simp only [hq, hov, htv, htt] at hvts hmap <;>
                  simp [hvts, hmap, hq, hov, htv, htt])
    · intro q
      rw [transcribeAll_embed, hem q, classifyAll_embed]
      have hvts := hvtsmem q
      have hmap := hmapTE q
      rw [classOf_TE] at hmap
      by_cases hq : q ∈ videos <;>
        by_cases hov : origValid fs base q = true <;>
          by_cases htv : transValid fs base tto q = true <;>
            by_cases htt : optTruthy tto = true <;>
              first
              | (exact absurd (htv_tt q htv) htt)
              | (simp only [hq, hov, htv, htt] at hvts hmap <;>
                  simp [hvts, hmap, hq, hov, htv, htt, classOf_RT, classOf_RO])

/-! ## Path computation lemmas -/

theorem getLastD_default (l : List Str) (h : l ≠ []) (d1 d2 : Str) :
    l.getLastD d1 = l.getLastD d2 := by
  cases l with
  | nil => exact absurd rfl h
  | cons a t => rfl

theorem getLastD_cons_ne (a : Str) (l : List Str) (h : l ≠ []) (d : Str) :
    (a :: l).getLastD d = l.getLastD d := by
  cases l with
  | nil => exact absurd rfl h
  | cons b u => rfl

theorem getLastD_append_str (l1 l2 : List Str) (h : l2 ≠ []) :
    (l1 ++ l2).getLastD [] = l2.getLastD [] := by
  induction l1 with
  | nil => rfl
  | cons a t ih =>
    have h2 : t ++ l2 ≠ [] := by
      intro e
      exact h (List.append_eq_nil.mp e).2
    rw [List.cons_append]
    rw [getLastD_cons_ne a (t ++ l2) h2 []]
    exact ih

theorem splitChar_sep_decomp (sep : Char) :
    ∀ (A B : Str), ∃ pre, pre ≠ [] ∧
      splitChar sep (A ++ sep :: B) = pre ++ splitChar sep B := by
  intro A
  induction A with
  | nil =>
    intro B
    refine ⟨[[]], by simp, ?_⟩
    cases hB : splitChar sep B with
    | nil => exact absurd hB (splitChar_ne_nil _ _)
    | cons h t => simp [splitChar, hB]
  | cons c A' ih =>
    intro B
    obtain ⟨pre, hpre, heq⟩ := ih B
    cases pre with
    | nil => exact absurd rfl hpre
    | cons hh t' =>
      by_cases hc : c = sep
      · refine ⟨[] :: hh :: t', by simp, ?_⟩
        simp only [List.cons_append, splitChar, List.append_eq, heq]
        simp [hc]
      · refine ⟨(c :: hh) :: t', by simp, ?_⟩
        simp only [List.cons_append, splitChar, List.append_eq, heq]
        simp [hc]

theorem basename_append_slash (A B : Str) :
    basename (A ++ '/' :: B) = basename B := by
  unfold basename
  obtain ⟨pre, hpre, heq⟩ := splitChar_sep_decomp '/' A B
  rw [heq]
  exact getLastD_append_str pre _ (splitChar_ne_nil _ _)

theorem basename_no_slash (l : Str) (h : ('/' : Char) ∉ l) :
    basename l = l := by
  unfold basename
  rw [splitChar_not_mem _ _ h]
  rfl

theorem lastDotIdx_none (l : Str) (h : ('.' : Char) ∉ l) :
    lastDotIdx l = none := by
  induction l with
  | nil => rfl
  | cons c cs ih =>
    have hc : c ≠ '.' := fun e => h (by simp [e])
    have hcs : ('.' : Char) ∉ cs := fun m => h (List.mem_cons_of_mem _ m)
    simp [lastDotIdx, ih hcs, hc]

theorem lastDotIdx_append (A B : Str) (j : Nat) (h : lastDotIdx B = some j) :
    lastDotIdx (A ++ B) = some (A.length + j) := by
  induction A with
  | nil => simpa using h
  | cons c A' ih =>
    rw [List.cons_append]
    simp only [lastDotIdx, ih]
    simp only [List.length_cons, Option.some.injEq]
    omega

theorem filename_of_decomp (dir stem ext : Str)
    (h1 : ('/' : Char) ∉ stem) (h2 : ('.' : Char) ∉ stem)
    (h3 : ('/' : Char) ∉ ext) (h4 : ('.' : Char) ∉ ext) (h5 : stem ≠ []) :
    filename (dir ++ '/' :: (stem ++ '.' :: ext)) = stem := by
  unfold filename
  rw [basename_append_slash]
  rw [basename_no_slash _ (by
    intro hm
    rcases List.mem_append.mp hm with hm | hm
    · exact h1 hm
    · rcases List.mem_cons.mp hm with e | hm2
      · exact absurd e (by decide)
      · exact h3 hm2)]
  unfold splitextStem
  rw [lastDotIdx_append stem ('.' :: ext) 0
    (by simp [lastDotIdx, lastDotIdx_none ext h4])]
  simp only [Nat.add_zero]
  have htake : (stem ++ '.' :: ext).take stem.length = stem :=
    List.take_left stem ('.' :: ext)
  rw [htake]
  have hall : stem.all (fun c => c = '.') = false := by
    cases stem with
    | nil => exact absurd rfl h5
    | cons a t =>
      have ha : ¬(a = '.') := fun e => h2 (by simp [e])
      simp [List.all_cons, ha]
  rw [hall]
  simp

/-! ## Claims -/

/-- C10: the artifact paths the resolver computes depend only on the
base directory, the target-language code, and the video path's stem (the
basename with the extension removed) — never on the video's directory or
extension.  Hence two distinct video paths with equal stems get
identical original and identical translated artifact paths. -/
theorem C10_artifact_paths_stem_only (base t p1 p2 : Str)
    (h : filename p1 = filename p2) :
    (srtOriginalPath base p1 = srtOriginalPath base p2 ∧
     srtTranslatedPath base t p1 = srtTranslatedPath base t p2) ∧
    (∀ dir stem ext : Str, ('/' : Char) ∉ stem → ('.' : Char) ∉ stem →
      ('/' : Char) ∉ ext → ('.' : Char) ∉ ext → stem ≠ [] →
      filename (dir ++ '/' :: (stem ++ '.' :: ext)) = stem) := by
  constructor
  · constructor
    · unfold srtOriginalPath
      rw [h]
    · unfold srtTranslatedPath
      rw [h]
  · intro dir stem ext h1 h2 h3 h4 h5
    exact filename_of_decomp dir stem ext h1 h2 h3 h4 h5

/-- C10 witness: `a/video.mp4` and `b/video.mkv` are distinct paths with
equal stems and get the same artifact paths; a path decomposes to its
stem. -/
theorem C10_witness :
    srtOriginalPath (chars "out") (chars "a/video.mp4") =
      srtOriginalPath (chars "out") (chars "b/video.mkv") ∧
    srtTranslatedPath (chars "out") (chars "es") (chars "a/video.mp4") =
      srtTranslatedPath (chars "out") (chars "es") (chars "b/video.mkv") ∧
    filename (chars "d1/d2/clip.mp4") = chars "clip" := by
  have hmain := C10_artifact_paths_stem_only (chars "out") (chars "es")
    (chars "a/video.mp4") (chars "b/video.mkv") (by decide)
  refine ⟨hmain.1.1, hmain.1.2, ?_⟩
  have hdec : chars "d1/d2/clip.mp4" =
      chars "d1/d2" ++ '/' :: (chars "clip" ++ '.' :: chars "mp4") := by decide
  rw [hdec]
  exact hmain.2 (chars "d1/d2") (chars "clip") (chars "mp4")
    (by decide) (by decide) (by decide) (by decide) (by decide)

/-- C2: the resolver treats a candidate artifact as reusable (fresh) iff
the artifact file exists and its modification time is greater than or
equal to that of the source video; an artifact with modification time
strictly earlier than its source video is never reusable. -/
theorem C2_freshness (fs : FSview) (srt video : Str) (vm : Nat)
    (hv : fs video = some vm) :
    (artifactValid fs srt video = true ↔
      ∃ am, fs srt = some am ∧ vm ≤ am) ∧
    (∀ am, fs srt = some am → am < vm →
      artifactValid fs srt video = false) := by
  constructor
  · unfold artifactValid
    cases hsrt : fs srt with
    | none => simp
    | some am => rw [hv]; simp
  · intro am hsrt hlt
    unfold artifactValid
    rw [hsrt, hv]
    simp only [decide_eq_false_iff_not]
    omega

/-- C2 witness: an artifact 10 ticks older than its video is stale, one
at the same time is fresh. -/
theorem C2_freshness_witness :
    artifactValid
      (fun p => if p = chars "a.mp4" then some 100
        else if p = chars "a.srt" then some 90 else none)
      (chars "a.srt") (chars "a.mp4") = false ∧
    artifactValid
      (fun p => if p = chars "b.mp4" then some 100
        else if p = chars "b.srt" then some 100 else none)
      (chars "b.srt") (chars "b.mp4") = true := by
  constructor
  · exact (C2_freshness _ (chars "a.srt") (chars "a.mp4") 100 (by decide)).2
      90 (by decide) (by decide)
  · exact ((C2_freshness _ (chars "b.srt") (chars "b.mp4") 100 (by decide)).1).mpr
      ⟨100, by decide, by decide⟩

/-- C6: for every non-negative seconds value that is an exact multiple
of one millisecond, decoding the hour-included encoding returns it
exactly: `decode(encode(s, true)) == s` at millisecond granularity
(times are carried in integer milliseconds). -/
theorem C6_timestamp_roundtrip (m : Nat) :
    parse_timestamp (format_timestamp m true) = some (m : Int) :=
  parse_format_timestamp m

/-- C8 counterexample: the claim says decode accepts the hour-omitted
form `MM:SS,mmm`; the code unpacks exactly three colon-separated
components and raises ValueError on `05:30,123` (which is also exactly
what encode produces for that time without forced hours), modelled as
`none`. -/
theorem C8_counterexample :
    parse_timestamp (chars "05:30,123") = none ∧
    format_timestamp 330123 false = chars "05:30,123" ∧
    parse_timestamp (format_timestamp 330123 false) = none := by
  refine ⟨rfl, by decide, rfl⟩

/-- C8 amended: decode accepts only the hour-included form
`HH:MM:SS,mmm` — it is the inverse of encode on hour-included encodings,
it rejects the hour-omitted form (the very form encode produces for
sub-hour times without forced hours), and it fails when the
comma-separated millisecond field is missing or a component is
non-numeric. -/
theorem C8_decode_domain :
    (∀ m : Nat, parse_timestamp (format_timestamp m true) = some (m : Int)) ∧
    (∀ m : Nat, m < 3600000 →
      parse_timestamp (format_timestamp m false) = none) ∧
    (∀ ts : Str, (',' : Char) ∉ ts → parse_timestamp ts = none) ∧
    (∀ A B C D : Str, (',' : Char) ∉ A → (',' : Char) ∉ B →
      (',' : Char) ∉ C → (',' : Char) ∉ D → (':' : Char) ∉ A →
      (':' : Char) ∉ B → (':' : Char) ∉ C → pyInt A = none →
      parse_timestamp ((A ++ ':' :: (B ++ ':' :: C)) ++ ',' :: D) = none) := by
  refine ⟨parse_format_timestamp, ?_, ?_, ?_⟩
  · intro m hm
    have h0 : m / 3600000 = 0 := Nat.div_eq_of_lt hm
    have hmod : m % 3600000 = m := Nat.mod_eq_of_lt hm
    have hsplit : format_timestamp m false =
        (padZero 2 (natRepr (m / 60000)) ++ ':' ::
          padZero 2 (natRepr (m % 60000 / 1000))) ++ ',' ::
          padZero 3 (natRepr (m % 60000 % 1000)) := by
      unfold format_timestamp
      rw [h0, hmod]
      simp
    rw [hsplit]
    have hA : (',' : Char) ∉ padZero 2 (natRepr (m / 60000)) ++ ':' ::
        padZero 2 (natRepr (m % 60000 / 1000)) := by
      intro hmem
      simp only [List.mem_append, List.mem_cons] at hmem
      rcases hmem with h | h | h
      · exact isDig_ne _ (pad_natRepr_all_dig _ _ _ h) ',' (by decide) rfl
      · exact absurd h (by decide)
      · exact isDig_ne _ (pad_natRepr_all_dig _ _ _ h) ',' (by decide) rfl
    have hB : (',' : Char) ∉ padZero 3 (natRepr (m % 60000 % 1000)) :=
      fun hmem => isDig_ne _ (pad_natRepr_all_dig _ _ _ hmem) ',' (by decide) rfl
    unfold parse_timestamp
    rw [splitChar_append ',' _ _ hA, splitChar_not_mem ',' _ hB]
    simp only [unpack2, Option.some_bind]
    rw [splitChar_append ':' _ _
      (fun hmem => isDig_ne _ (pad_natRepr_all_dig _ _ _ hmem) ':' (by decide) rfl)]
    rw [splitChar_not_mem ':' _
      (fun hmem => isDig_ne _ (pad_natRepr_all_dig _ _ _ hmem) ':' (by decide) rfl)]
    simp [unpack3]
  · intro ts h
    unfold parse_timestamp
    rw [splitChar_not_mem ',' ts h]
    simp [unpack2]
  · intro A B C D hcA hcB hcC hcD hlA hlB hlC hpy
    have hnoC : (',' : Char) ∉ A ++ ':' :: (B ++ ':' :: C) := by
      intro hmem
      simp only [List.mem_append, List.mem_cons] at hmem
      rcases hmem with h | h | h | h | h
      · exact hcA h
      · exact absurd h (by decide)
      · exact hcB h
      · exact absurd h (by decide)
      · exact hcC h
    unfold parse_timestamp
    rw [splitChar_append ',' _ _ hnoC, splitChar_not_mem ',' _ hcD]
    simp only [unpack2, Option.some_bind]
    rw [splitChar_append ':' _ _ hlA]
    rw [splitChar_append ':' _ _ hlB, splitChar_not_mem ':' _ hlC]
    simp only [unpack3, Option.some_bind]
    rw [hpy]
    simp

/-- C8 witness: one accepted hour-included input, one rejected
hour-omitted input, one input without a millisecond field, one input
with a non-numeric hour component. -/
theorem C8_decode_domain_witness :
    parse_timestamp (format_timestamp 3725400 true) = some (3725400 : Int) ∧
    parse_timestamp (format_timestamp 330123 false) = none ∧
    parse_timestamp (chars "123456") = none ∧
    parse_timestamp ((chars "xx" ++ ':' :: (chars "00" ++ ':' :: chars "00"))
      ++ ',' :: chars "000") = none := by
  refine ⟨C8_decode_domain.1 3725400, C8_decode_domain.2.1 330123 (by decide),
    C8_decode_domain.2.2.1 (chars "123456") (by decide), ?_⟩
  exact C8_decode_domain.2.2.2 (chars "xx") (chars "00") (chars "00")
    (chars "000") (by decide) (by decide) (by decide) (by decide) (by decide)
    (by decide) (by decide) (by decide)

/-- C1: whenever a target language is requested and the translated
artifact of a video is fresh, the resolver classifies that video
`ReuseTranslated` — whatever the freshness of the original artifact (the
first two conjuncts instantiate both original states) — and in the
classification loop the video lands in the embed map with the translated
path, not in the transcription list and not in the translate-existing
list; the classification function assigns exactly one classification. -/
theorem C1_reuse_translated_precedence (fs : FSview) (base : Str)
    (videos : List Str) (t p : Str) (ht : t ≠ []) (hp : p ∈ videos)
    (htv : artifactValid fs (srtTranslatedPath base t p) p = true) :
    classify true false true = .ReuseTranslated ∧
    classify true true true = .ReuseTranslated ∧
    classOf fs base (some t) p = .ReuseTranslated ∧
    (classifyAll fs base (some t) videos).embed_map p =
      some (srtTranslatedPath base t p) ∧
    p ∉ (classifyAll fs base (some t) videos).videos_to_transcribe ∧
    (classifyAll fs base (some t) videos).translate_existing.all
      (fun x => decide (x.1 ≠ p)) = true := by
  have htt : optTruthy (some t) = true := by
    cases t with
    | nil => exact absurd rfl ht
    | cons a s => rfl
  have htv2 : transValid fs base (some t) p = true := by
    unfold transValid
    rw [htt]
    rw [show ((some t).getD ([] : Str)) = t from rfl, htv]
    rfl
  have hcls : classOf fs base (some t) p = .ReuseTranslated :=
    (classOf_RT fs base (some t) p).mpr htv2
  refine ⟨rfl, rfl, hcls, ?_, ?_, ?_⟩
  · rw [classifyAll_embed]
    simp [hp, hcls]
  · rw [classifyAll_vtt]
    simp [hcls]
  · rw [List.all_eq_true]
    intro x hx
    have h := (classifyAll_te fs base (some t) videos x).mp hx
    simp only [decide_eq_true_eq]
    intro he
    have h2 := h.2.1
    rw [he, hcls] at h2
    cases h2

/-- C1 witness: a video whose translated artifact is fresh while the
original artifact is stale. -/
theorem C1_witness :
    (classifyAll
      (fun q => if q = chars "dir/a.mp4" then some 100
        else if q = chars "out/a.srt" then some 10
        else if q = chars "out/a_es.srt" then some 160 else none)
      (chars "out") (some (chars "es")) [chars "dir/a.mp4"]).embed_map
        (chars "dir/a.mp4") = some (chars "out/a_es.srt") ∧
    chars "dir/a.mp4" ∉ (classifyAll
      (fun q => if q = chars "dir/a.mp4" then some 100
        else if q = chars "out/a.srt" then some 10
        else if q = chars "out/a_es.srt" then some 160 else none)
      (chars "out") (some (chars "es")) [chars "dir/a.mp4"]).videos_to_transcribe := by
  have h := C1_reuse_translated_precedence
    (fun q => if q = chars "dir/a.mp4" then some 100
      else if q = chars "out/a.srt" then some 10
      else if q = chars "out/a_es.srt" then some 160 else none)
    (chars "out") [chars "dir/a.mp4"] (chars "es") (chars "dir/a.mp4")
    (by decide) (by simp) (by decide)
  have he : srtTranslatedPath (chars "out") (chars "es") (chars "dir/a.mp4") =
      chars "out/a_es.srt" := by decide
  exact ⟨by rw [← he]; exact h.2.2.2.1, h.2.2.2.2.1⟩

/-- C4: at embed-map assembly time, after a successful resolve run: if a
target language was requested and a translated artifact exists for a
video (reused or freshly produced, i.e. recorded in
subtitles_translated), the embed map holds the translated artifact and
the embed-time choice selects it; otherwise the choice selects the
original artifact; and a video whose choice is falsy is skipped
non-fatally — the embedding loop continues with the remaining videos
exactly as if the skipped video were absent. -/
theorem C4_embed_selection (fs : FSview) (contents : Str → Str)
    (tr : Str → Except PyErr Str) (base : Str) (tto : Option Str)
    (videos : List Str) (st : MainState) (p s : Str)
    (hok : mainResolve fs contents tr base tto videos = .ok st)
    (hp : p ∈ videos) :
    (optTruthy tto = true → st.subtitles_translated p = some s →
      st.embed_map p = some s ∧ embedChoice st p = some s) ∧
    (st.subtitles_translated p = none → st.subtitles_original p = some s →
      embedChoice st p = some s) ∧
    (∀ (choice : Str → Option Str) (mux : Str → Str → Except Unit Unit)
      (v : Str) (rest : List Str), truthyOpt (choice v) = false →
      embedStage mux choice (v :: rest) = embedStage mux choice rest) := by
  obtain ⟨hso, hstl, hem⟩ := mainResolve_ok_char fs contents tr base tto videos st hok
  refine ⟨?_, ?_, ?_⟩
  · intro htt hsv
    rw [hstl p, if_pos ⟨hp, htt⟩] at hsv
    have hs : s = srtTranslatedPath base (tto.getD []) p :=
      (Option.some.inj hsv).symm
    have hemp : st.embed_map p = some s := by
      rw [hem p, if_pos hp, htt, hs]
      simp
    refine ⟨hemp, ?_⟩
    unfold embedChoice pyOr
    rw [hemp]
    have hne : s.isEmpty = false := by
      rw [hs]
      simpa using srtTranslatedPath_ne_nil base (tto.getD []) p
    simp [hne]
  · intro hnone hsome
    rw [hstl p] at hnone
    have htt : ¬(optTruthy tto = true) := by
      intro htt
      rw [if_pos ⟨hp, htt⟩] at hnone
      cases hnone
    have httf : optTruthy tto = false := by
      revert htt
      cases optTruthy tto <;> simp
    rw [hso p] at hsome
    have hs : s = srtOriginalPath base p := by
      by_cases hc : p ∈ videos ∧ (origValid fs base p = true ∨
          classOf fs base tto p = .TranscribeFresh)
      · rw [if_pos hc] at hsome
        exact (Option.some.inj hsome).symm
      · rw [if_neg hc] at hsome
        cases hsome
    have hemp : st.embed_map p = some (srtOriginalPath base p) := by
      rw [hem p, if_pos hp, httf]
      simp
    unfold embedChoice pyOr
    rw [hemp]
    have hne : (srtOriginalPath base p).isEmpty = false := by
      simpa using srtOriginalPath_ne_nil base p
    simp [hne, hs]
  · intro choice mux v rest hfalse
    cases hc : choice v with
    | none => simp [embedStage, hc]
    | some s2 =>
      simp only [truthyOpt, hc] at hfalse
      have hse : s2.isEmpty = true := by
        cases h2 : s2.isEmpty with
        | true => rfl
        | false =>
          rw [h2] at hfalse
          exact absurd hfalse (by decide)
      simp [embedStage, hc, hse]

/-- C4 witness: a run with one video whose original subtitle is fresh
and a target language requested; the embed map and the embed-time choice
both hold the translated artifact, and a video with a falsy choice is
skipped. -/
theorem C4_embed_selection_witness :
    (okState (mainResolve
      (fun q => if q = chars "b.mp4" then some 100
        else if q = chars "out/b.srt" then some 150 else none)
      (fun q => if q = chars "out/b.srt" then
          chars "1\n00:00:00,000 --> 00:00:01,000\nhi\n\n" else [])
      (fun t => .ok t) (chars "out") (some (chars "es"))
      [chars "b.mp4"])).embed_map (chars "b.mp4") =
        some (chars "out/b_es.srt") ∧
    embedChoice (okState (mainResolve
      (fun q => if q = chars "b.mp4" then some 100
        else if q = chars "out/b.srt" then some 150 else none)
      (fun q => if q = chars "out/b.srt" then
          chars "1\n00:00:00,000 --> 00:00:01,000\nhi\n\n" else [])
      (fun t => .ok t) (chars "out") (some (chars "es"))
      [chars "b.mp4"])) (chars "b.mp4") = some (chars "out/b_es.srt") ∧
    embedStage (fun _ _ => Except.ok ()) (fun _ => none)
      [chars "v1.mp4"] = embedStage (fun _ _ => Except.ok ())
      (fun _ => none) [] := by
  have h := C4_embed_selection
    (fun q => if q = chars "b.mp4" then some 100
      else if q = chars "out/b.srt" then some 150 else none)
    (fun q => if q = chars "out/b.srt" then
        chars "1\n00:00:00,000 --> 00:00:01,000\nhi\n\n" else [])
    (fun t => .ok t) (chars "out") (some (chars "es"))
    [chars "b.mp4"]
    (okState (mainResolve
      (fun q => if q = chars "b.mp4" then some 100
        else if q = chars "out/b.srt" then some 150 else none)
      (fun q => if q = chars "out/b.srt" then
          chars "1\n00:00:00,000 --> 00:00:01,000\nhi\n\n" else [])
      (fun t => .ok t) (chars "out") (some (chars "es"))
      [chars "b.mp4"]))
    (chars "b.mp4") (chars "out/b_es.srt") rfl (by simp)
  obtain ⟨h1, h2⟩ := h.1 rfl rfl
  exact ⟨h1, h2, h.2.2 (fun _ => none) (fun _ _ => Except.ok ())
    (chars "v1.mp4") [] rfl⟩

/-- C5 counterexample: two videos, the muxing collaborator raises on the
first; the second video is not processed — the exception propagates and
aborts the batch, contradicting the claim that every subsequent video is
still processed. -/
theorem C5_counterexample :
    embedStage (fun v _ => if v = chars "a.mp4" then .error () else .ok ())
      (fun _ => some (chars "s.srt"))
      [chars "a.mp4", chars "b.mp4"] = ([], true) ∧
    chars "b.mp4" ∉ (embedStage
      (fun v _ => if v = chars "a.mp4" then .error () else .ok ())
      (fun _ => some (chars "s.srt"))
      [chars "a.mp4", chars "b.mp4"]).1 := by
  constructor
  · decide
  · decide

/-- C5 amended: the embedding loop has no per-video exception isolation:
when the muxing collaborator succeeds on every chosen video the whole
batch is processed (videos with a falsy choice are skipped, which is the
only per-video isolation present), but the first muxing exception aborts
the loop — exactly the videos before the failing one are processed and
none after it. -/
theorem C5_mux_abort :
    (∀ (mux : Str → Str → Except Unit Unit) (choice : Str → Option Str)
      (vs : List Str),
      (∀ v ∈ vs, ∀ s, choice v = some s → s.isEmpty = false →
        mux v s = .ok ()) →
      embedStage mux choice vs =
        (vs.filter (fun v => truthyOpt (choice v)), false)) ∧
    (∀ (mux : Str → Str → Except Unit Unit) (choice : Str → Option Str)
      (l1 : List Str) (v : Str) (l2 : List Str) (s : Str),
      (∀ u ∈ l1, ∀ x, choice u = some x → x.isEmpty = false →
        mux u x = .ok ()) →
      choice v = some s → s.isEmpty = false → mux v s = .error () →
      embedStage mux choice (l1 ++ v :: l2) =
        (l1.filter (fun u => truthyOpt (choice u)), true)) := by
  constructor
  · intro mux choice vs
    induction vs with
    | nil =>
      intro h
      simp [embedStage]
    | cons v rest ih =>
      intro h
      have hrest := ih (fun u hu => h u (by simp [hu]))
      cases hc : choice v with
      | none => simp [embedStage, hc, truthyOpt, hrest]
      | some s =>
        by_cases hse : s.isEmpty = true
        · simp [embedStage, hc, hse, truthyOpt, hrest]
        · have hse2 : s.isEmpty = false := by
            revert hse
            cases s.isEmpty <;> simp
          have hmux := h v (by simp) s hc hse2
          simp [embedStage, hc, hse2, hmux, truthyOpt, hrest]
  · intro mux choice l1 v l2 s
    induction l1 with
    | nil =>
      intro h hcv hse hmux
      simp [embedStage, hcv, hse, hmux]
    | cons u t ih =>
      intro h hcv hse hmux
      have hrec := ih (fun w hw => h w (by simp [hw])) hcv hse hmux
      cases hcu : choice u with
      | none => simp [embedStage, hcu, truthyOpt, hrec]
      | some x =>
        by_cases hxe : x.isEmpty = true
        · simp [embedStage, hcu, hxe, truthyOpt, hrec]
        · have hxe2 : x.isEmpty = false := by
            revert hxe
            cases x.isEmpty <;> simp
          have hmuxu := h u (by simp) x hcu hxe2
          simp [embedStage, hcu, hxe2, hmuxu, truthyOpt, hrec]

/-- C5 amended witness: an all-success batch processes every chosen
video; a batch whose middle video fails processes only the prefix. -/
theorem C5_mux_abort_witness :
    embedStage (fun _ _ => .ok ()) (fun _ => some (chars "s.srt"))
      [chars "a.mp4", chars "b.mp4"] =
      ([chars "a.mp4", chars "b.mp4"], false) ∧
    embedStage (fun v _ => if v = chars "b.mp4" then .error () else .ok ())
      (fun _ => some (chars "s.srt"))
      ([chars "a.mp4"] ++ chars "b.mp4" :: [chars "c.mp4"]) =
      ([chars "a.mp4"], true) := by
  constructor
  · have h := C5_mux_abort.1 (fun _ _ => .ok ())
      (fun _ => some (chars "s.srt")) [chars "a.mp4", chars "b.mp4"]
      (fun v hv s hc hse => rfl)
    rw [h]
    decide
  · have h := C5_mux_abort.2
      (fun v _ => if v = chars "b.mp4" then .error () else .ok ())
      (fun _ => some (chars "s.srt"))
      [chars "a.mp4"] (chars "b.mp4") [chars "c.mp4"] (chars "s.srt")
      (by
        intro u hu x hc hxe
        have hu2 : u = chars "a.mp4" := List.mem_singleton.mp hu
        have hx : x = chars "s.srt" := (Option.some.inj hc).symm
        rw [hu2, hx]
        rfl)
      rfl (by decide) rfl
    rw [h]
    decide

/-- C3, at the failing input: one video whose original artifact is fresh
and whose translated artifact is absent is classified translate-existing;
when the translation collaborator raises, translate_srt_file propagates
the exception with no destination content produced (the source writes
the destination file only after the whole parse/translate loop), and the
pipeline run aborts with that exception instead of moving the video into
the transcription work list — the fallback branch of cli.main is dead
because translate_srt_file always returns the truthy destination path. -/
theorem C3_translate_failure_aborts :
    (classifyAll (fun q => if q = chars "b.mp4" then some 100
        else if q = chars "out/b.srt" then some 150 else none)
      (chars "out") (some (chars "es")) [chars "b.mp4"]).translate_existing =
      [(chars "b.mp4", chars "out/b.srt", chars "out/b_es.srt")] ∧
    translate_srt_file (chars "1\n00:00:00,000 --> 00:00:01,000\nhi\n\n")
      (fun _ => .error .translationFailed) = .error .translationFailed ∧
    resolveErr (mainResolve (fun q => if q = chars "b.mp4" then some 100
        else if q = chars "out/b.srt" then some 150 else none)
      (fun q => if q = chars "out/b.srt" then
          chars "1\n00:00:00,000 --> 00:00:01,000\nhi\n\n" else [])
      (fun _ => .error .translationFailed)
      (chars "out") (some (chars "es")) [chars "b.mp4"]) =
      some .translationFailed := by
  refine ⟨by decide, rfl, rfl⟩

/-! ## Reader behavior (C9, C7) -/

theorem translate_text_id (tx : Str) :
    translate_text (fun t => .ok t) tx = .ok tx := by
  unfold translate_text
  split_ifs <;> rfl

theorem parseTransBlocks_ok_filterMap (blocks : List (List Str)) :
    ∀ (segs : List Seg),
      parseTransBlocks (fun t => .ok t) blocks = .ok segs →
      segs = blocks.filterMap parsedSeg := by
  induction blocks with
  | nil =>
    intro segs h
    simp only [parseTransBlocks] at h
    rw [← Except.ok.inj h]
    rfl
  | cons blk rest ih =>
    intro segs h
    rw [List.filterMap_cons]
    simp only [parseTransBlocks] at h
    cases hpb : parseBlock blk with
    | error e =>
      rw [hpb] at h
      cases h
    | ok o =>
      cases o with
      | none =>
        rw [hpb] at h
        simp only [parsedSeg, hpb]
        exact ih segs h
      | some trip =>
        obtain ⟨st, en, tx⟩ := trip
        simp only [hpb, translate_text_id] at h
        cases hrest : parseTransBlocks (fun t => .ok t) rest with
        | error e =>
          rw [hrest] at h
          cases h
        | ok segs2 =>
          simp only [hrest] at h
          simp only [parsedSeg, hpb]
          rw [← Except.ok.inj h, ih segs2 hrest]

/-- C9 counterexample: a block whose timing line contains the arrow but
cannot be parsed is not silently skipped — the read raises ValueError
(here modelled as the error result), and a later well-formed block is
lost with it; moreover, for a kept block the text is trimmed, not the
raw space-join of the text lines. -/
theorem C9_counterexample :
    read_srt (chars
      "1\n00:00:00,000 --> bad\nt\n\n2\n00:00:00,000 --> 00:00:01,000\nok\n\n")
      = .error .valueError ∧
    read_srt (chars "1\n00:00:00,000 --> 00:00:01,000\n a \n\n") =
      .ok [⟨0, 1000, chars "a"⟩] ∧
    joinSpace [chars " a "] ≠ chars "a" := by
  refine ⟨rfl, rfl, by decide⟩

/-- C9 amended: a block with fewer than two lines is silently dropped,
and so is a block whose second line lacks the arrow; but a block whose
timing line contains the arrow and then fails — wrong number of arrow
pieces, or an unparseable timestamp — raises ValueError, which aborts
the whole read rather than skipping the block.  For kept blocks the text
is the space-join of the lines from index 2 onward trimmed of
surrounding whitespace (the empty string when no text lines exist), and
a successful read returns the kept segments in source order (it is the
in-order filterMap of the per-block results). -/
theorem C9_reader_behavior :
    (∀ blk : List Str, blk.length < 2 → parseBlock blk = .ok none) ∧
    (∀ (a b : Str) (rest : List Str), containsArrow b = false →
      parseBlock (a :: b :: rest) = .ok none) ∧
    (∀ (a b : Str) (rest : List Str), containsArrow b = true →
      unpack2 (splitArrow b) = none →
      parseBlock (a :: b :: rest) = .error .valueError) ∧
    (∀ (a b x y : Str) (rest : List Str), containsArrow b = true →
      unpack2 (splitArrow b) = some (x, y) →
      parse_timestamp (pystrip x) = none →
      parseBlock (a :: b :: rest) = .error .valueError) ∧
    (∀ (a b x y : Str) (rest : List Str) (st en : Int),
      containsArrow b = true → unpack2 (splitArrow b) = some (x, y) →
      parse_timestamp (pystrip x) = some st →
      parse_timestamp (pystrip y) = some en →
      parseBlock (a :: b :: rest) =
        .ok (some (st, en,
          pystrip (joinSpace (if rest.isEmpty then [[]] else rest))))) ∧
    (∀ (blocks : List (List Str)) (segs : List Seg),
      parseTransBlocks (fun t => .ok t) blocks = .ok segs →
      segs = blocks.filterMap parsedSeg) := by
  refine ⟨?_, ?_, ?_, ?_, ?_, parseTransBlocks_ok_filterMap⟩
  · intro blk hlen
    match blk with
    | [] => rfl
    | [a] => rfl
    | a :: b :: rest => simp at hlen; omega
  · intro a b rest h
    simp [parseBlock, h]
  · intro a b rest h h2
    simp [parseBlock, h, h2]
  · intro a b x y rest h h2 h3
    simp [parseBlock, h, h2, h3]
  · intro a b x y rest st en h h2 h3 h4
    simp [parseBlock, h, h2, h3, h4]

/-- C9 witness: one instance of each reader behavior — a one-line block
and an arrowless block dropped, a three-piece arrow line and a
non-numeric timing fatal, a kept block with trimmed text, and the
in-order collection of a successful read. -/
theorem C9_reader_behavior_witness :
    parseBlock [chars "1"] = .ok none ∧
    parseBlock [chars "1", chars "bad", chars "t"] = .ok none ∧
    parseBlock [chars "1", chars "a-->b-->c", chars "t"] =
      .error .valueError ∧
    parseBlock [chars "1", chars "xx --> yy", chars "t"] =
      .error .valueError ∧
    parseBlock [chars "1", chars "00:00:00,000 --> 00:00:01,000",
      chars " t "] = .ok (some (0, 1000, chars "t")) ∧
    [(⟨0, 1000, chars "t"⟩ : Seg)] =
      [[chars "1", chars "00:00:00,000 --> 00:00:01,000",
        chars " t "]].filterMap parsedSeg := by
  refine ⟨C9_reader_behavior.1 _ (by decide),
    C9_reader_behavior.2.1 (chars "1") (chars "bad") [chars "t"] (by decide),
    C9_reader_behavior.2.2.1 (chars "1") (chars "a-->b-->c") [chars "t"]
      (by decide) (by decide),
    C9_reader_behavior.2.2.2.1 (chars "1") (chars "xx --> yy")
      (chars "xx ") (chars " yy") [chars "t"] (by decide) (by decide)
      (by decide), ?_, ?_⟩
  · have h5 := C9_reader_behavior.2.2.2.2.1 (chars "1")
      (chars "00:00:00,000 --> 00:00:01,000") (chars "00:00:00,000 ")
      (chars " 00:00:01,000") [chars " t "] 0 1000 (by decide) (by decide)
      (by decide) (by decide)
    exact h5.trans rfl
  · exact C9_reader_behavior.2.2.2.2.2 _ _ rfl

/-! ## Write output structure (C7) -/

theorem splitChar_cons_sep (sep : Char) (l : Str) :
    splitChar sep (sep :: l) = [] :: splitChar sep l := by
  cases h : splitChar sep l with
  | nil => exact absurd h (splitChar_ne_nil _ _)
  | cons a b => simp [splitChar, h]

theorem format_not_ws (m : Nat) (b : Bool) :
    ∀ c ∈ format_timestamp m b, pyWs c = false := by
  intro c hc
  rcases format_timestamp_chars m b c hc with hd | hc2 | hc2
  · exact isDig_not_ws c hd
  · rw [hc2]; decide
  · rw [hc2]; decide

theorem nl_notin_natRepr (i : Nat) : ('\n' : Char) ∉ natRepr i :=
  fun hm => isDig_ne _ (natRepr_all_dig i _ hm) '\n' (by decide) rfl

theorem nl_notin_format (m : Nat) (b : Bool) :
    ('\n' : Char) ∉ format_timestamp m b := by
  intro hm
  rcases format_timestamp_chars m b _ hm with hd | hc | hc
  · exact isDig_ne _ hd '\n' (by decide) rfl
  · exact absurd hc (by decide)
  · exact absurd hc (by decide)

theorem nl_notin_timeLine (s : Seg) : ('\n' : Char) ∉ timeLine s := by
  intro hm
  unfold timeLine at hm
  rcases List.mem_append.mp hm with hm | hm
  · exact nl_notin_format _ _ hm
  · simp only [List.mem_cons] at hm
    rcases hm with h | h | h | h | h | h
    · exact absurd h (by decide)
    · exact absurd h (by decide)
    · exact absurd h (by decide)
    · exact absurd h (by decide)
    · exact absurd h (by decide)
    · exact nl_notin_format _ _ h

theorem containsArrow_pystrip_false (l : Str)
    (h : containsArrow l = false) : containsArrow (pystrip l) = false := by
  cases hc : containsArrow (pystrip l) with
  | false => rfl
  | true =>
    rw [containsArrow_pystrip l hc] at h
    cases h

theorem textLine_eq (s : Seg) (h : containsArrow s.text = false) :
    textLine s = pystrip s.text := by
  unfold textLine
  rw [replaceArrow_of_not_contains _ (containsArrow_pystrip_false _ h)]

theorem write_srtAux_lines (segs : List Seg) :
    ∀ (i : Nat),
      (∀ s ∈ segs, 0 ≤ s.start ∧ 0 ≤ s.stop ∧ containsArrow s.text = false ∧
        ('\n' : Char) ∉ s.text) →
      ∃ c, write_srtAux i segs = .ok c ∧
        splitChar '\n' c = srtLines i segs ++ [[]] := by
  induction segs with
  | nil =>
    intro i h
    exact ⟨[], rfl, rfl⟩
  | cons s rest ih =>
    intro i h
    obtain ⟨h1, h2, h3, h4⟩ := h s (by simp)
    obtain ⟨c2, hc2, hsplit⟩ := ih (i + 1) (fun x hx => h x (by simp [hx]))
    have hf1 : format_timestampI s.start true =
        .ok (format_timestamp s.start.toNat true) := by
      unfold format_timestampI
      rw [if_neg (by omega)]
    have hf2 : format_timestampI s.stop true =
        .ok (format_timestamp s.stop.toNat true) := by
      unfold format_timestampI
      rw [if_neg (by omega)]
    have hnl3 : ('\n' : Char) ∉ textLine s := by
      rw [textLine_eq s h3]
      exact fun hm => h4 (mem_pystrip _ _ hm)
    refine ⟨natRepr i ++ '\n' ::
      (timeLine s ++ '\n' :: (textLine s ++ '\n' :: '\n' :: c2)), ?_, ?_⟩
    · simp only [write_srtAux, hf1, hf2, hc2]
      rfl
    · rw [splitChar_append '\n' (natRepr i) _ (nl_notin_natRepr i)]
      rw [splitChar_append '\n' (timeLine s) _ (nl_notin_timeLine s)]
      rw [splitChar_append '\n' (textLine s) _ hnl3]
      rw [splitChar_cons_sep, hsplit]
      simp [srtLines]

theorem buildBlocks_srtLines (segs : List Seg) :
    ∀ (i : Nat),
      (∀ s ∈ segs, pystrip s.text ≠ [] ∧ containsArrow s.text = false) →
      buildBlocksAux (srtLines i segs ++ [[]]) [] = srtBlocks i segs := by
  induction segs with
  | nil =>
    intro i h
    rfl
  | cons s rest ih =>
    intro i h
    obtain ⟨h1, h2⟩ := h s (by simp)
    have htl := textLine_eq s h2
    have hb1 : ¬(pystrip (natRepr i) = []) := by
      rw [pystrip_of_all_non_ws
        (fun c hc => isDig_not_ws c (natRepr_all_dig i c hc))]
      exact natRepr_ne_nil i
    have hb2 : ¬(pystrip (timeLine s) = []) := by
      refine pystrip_ne_nil _ '-' ?_ (by decide)
      unfold timeLine
      simp
    have hb3 : ¬(pystrip (textLine s) = []) := by
      rw [htl, pystrip_idem]
      exact h1
    have hnil : pystrip ([] : Str) = [] := rfl
    have hrec := ih (i + 1) (fun x hx => h x (by simp [hx]))
    simp [srtLines, buildBlocksAux, hb1, hb2, hb3, hnil, hrec, srtBlocks]

theorem parseBlock_kept (a b x y : Str) (rest : List Str) (st en : Int)
    (h : containsArrow b = true) (h2 : unpack2 (splitArrow b) = some (x, y))
    (h3 : parse_timestamp (pystrip x) = some st)
    (h4 : parse_timestamp (pystrip y) = some en) :
    parseBlock (a :: b :: rest) =
      .ok (some (st, en,
        pystrip (joinSpace (if rest.isEmpty then [[]] else rest)))) := by
  simp [parseBlock, h, h2, h3, h4]

theorem parse_srtBlocks (segs : List Seg) :
    ∀ (i : Nat),
      (∀ s ∈ segs, 0 ≤ s.start ∧ 0 ≤ s.stop ∧
        containsArrow s.text = false) →
      parseTransBlocks (fun t => .ok t) (srtBlocks i segs) =
        .ok (segs.map trimSeg) := by
  induction segs with
  | nil =>
    intro i h
    rfl
  | cons s rest ih =>
    intro i h
    obtain ⟨h1, h2, h3⟩ := h s (by simp)
    have htl := textLine_eq s h3
    have hshape : timeLine s =
        (format_timestamp s.start.toNat true ++ [' ']) ++
          '-' :: '-' :: '>' :: (' ' :: format_timestamp s.stop.toNat true) := by
      unfold timeLine
      simp
    have harrow : containsArrow (timeLine s) = true := by
      rw [hshape]
      exact containsArrow_arrow _ _
    have hnodash1 : ('-' : Char) ∉
        format_timestamp s.start.toNat true ++ [' '] := by
      intro hm
      rcases List.mem_append.mp hm with hm | hm
      · rcases format_timestamp_chars _ _ _ hm with hd | hc | hc
        · exact isDig_ne _ hd '-' (by decide) rfl
        · exact absurd hc (by decide)
        · exact absurd hc (by decide)
      · exact absurd (List.mem_singleton.mp hm) (by decide)
    have hnodash2 : ('-' : Char) ∉
        (' ' :: format_timestamp s.stop.toNat true) := by
      intro hm
      rcases List.mem_cons.mp hm with hc | hm
      · exact absurd hc (by decide)
      · rcases format_timestamp_chars _ _ _ hm with hd | hc | hc
        · exact isDig_ne _ hd '-' (by decide) rfl
        · exact absurd hc (by decide)
        · exact absurd hc (by decide)
    have hsplitA : splitArrow (timeLine s) =
        [format_timestamp s.start.toNat true ++ [' '],
          ' ' :: format_timestamp s.stop.toNat true] := by
      rw [hshape, splitArrow_append _ _ hnodash1,
        splitArrow_no_dash _ hnodash2]
    have hp1 : parse_timestamp
        (pystrip (format_timestamp s.start.toNat true ++ [' '])) =
        some s.start := by
      rw [pystrip_append_space _ (format_not_ws _ _),
        parse_format_timestamp, Int.toNat_of_nonneg h1]
    have hp2 : parse_timestamp
        (pystrip (' ' :: format_timestamp s.stop.toNat true)) =
        some s.stop := by
      rw [pystrip_cons_space _ (format_not_ws _ _),
        parse_format_timestamp, Int.toNat_of_nonneg h2]
    have hpb := parseBlock_kept (natRepr i) (timeLine s) _ _ [textLine s]
      s.start s.stop harrow (by rw [hsplitA]; rfl) hp1 hp2
    have htext : pystrip (joinSpace
        (if ([textLine s] : List Str).isEmpty then [[]] else [textLine s])) =
        pystrip s.text := by
      rw [show (if ([textLine s] : List Str).isEmpty then [[]]
        else [textLine s]) = [textLine s] from rfl]
      rw [show joinSpace [textLine s] = textLine s from rfl]
      rw [htl, pystrip_idem]
    rw [htext] at hpb
    have hrec := ih (i + 1) (fun x hx => h x (by simp [hx]))
    simp only [srtBlocks, parseTransBlocks, hpb, translate_text_id, hrec]
    simp [trimSeg]

/-- C7 counterexample: a segment whose text contains a newline satisfies
every condition of the claim (valid times, nonempty trimmed text, no
literal arrow) yet does not round-trip: the reader space-joins the two
lines the writer produced, so the text comes back as `a b`, not
`a\nb`. -/
theorem C7_counterexample :
    (pystrip (chars "a\nb") ≠ [] ∧
      containsArrow (chars "a\nb") = false) ∧
    write_srt [⟨0, 0, chars "a\nb"⟩] =
      .ok (chars "1\n00:00:00,000 --> 00:00:00,000\na\nb\n\n") ∧
    read_srt (chars "1\n00:00:00,000 --> 00:00:00,000\na\nb\n\n") =
      .ok [⟨0, 0, chars "a b"⟩] ∧
    chars "a b" ≠ (trimSeg ⟨0, 0, chars "a\nb"⟩).text := by
  refine ⟨by decide, rfl, rfl, by decide⟩

/-- C7 amended: for every ordered sequence of valid segments (start at
least 0, end at least start, millisecond-granular times) whose texts are
non-empty after whitespace trimming, contain no literal arrow substring,
and contain no newline character, reading back the serializer's written
output yields the same sequence: same count, same order, same start and
end times, and the trimmed text of each segment. -/
theorem C7_serializer_roundtrip (segs : List Seg)
    (h : ∀ s ∈ segs, 0 ≤ s.start ∧ s.start ≤ s.stop ∧
      pystrip s.text ≠ [] ∧ containsArrow s.text = false ∧
      ('\n' : Char) ∉ s.text) :
    ∃ content, write_srt segs = .ok content ∧
      read_srt content = .ok (segs.map trimSeg) := by
  obtain ⟨c, hc, hsplit⟩ := write_srtAux_lines segs 1
    (fun s hs => ⟨(h s hs).1, le_trans (h s hs).1 (h s hs).2.1,
      (h s hs).2.2.2.1, (h s hs).2.2.2.2⟩)
  refine ⟨c, hc, ?_⟩
  unfold read_srt buildBlocks
  rw [hsplit]
  rw [buildBlocks_srtLines segs 1
    (fun s hs => ⟨(h s hs).2.2.1, (h s hs).2.2.2.1⟩)]
  exact parse_srtBlocks segs 1
    (fun s hs => ⟨(h s hs).1, le_trans (h s hs).1 (h s hs).2.1,
      (h s hs).2.2.2.1⟩)

/-- C7 witness: a two-segment file round-trips exactly. -/
theorem C7_serializer_roundtrip_witness :
    write_srt [⟨0, 1000, chars "hello"⟩, ⟨1500, 3000, chars " world "⟩] =
      .ok (chars
        "1\n00:00:00,000 --> 00:00:01,000\nhello\n\n2\n00:00:01,500 --> 00:00:03,000\nworld\n\n") ∧
    read_srt (chars
      "1\n00:00:00,000 --> 00:00:01,000\nhello\n\n2\n00:00:01,500 --> 00:00:03,000\nworld\n\n") =
      .ok [⟨0, 1000, chars "hello"⟩, ⟨1500, 3000, chars "world"⟩] := by
  obtain ⟨c, hc, hr⟩ := C7_serializer_roundtrip
    [⟨0, 1000, chars "hello"⟩, ⟨1500, 3000, chars " world "⟩]
    (by
      intro s hs
      rcases List.mem_cons.mp hs with h | hs2
      · rw [h]
        refine ⟨by decide, by decide, by decide, by decide, by decide⟩
      · rcases List.mem_singleton.mp hs2 with h
        rw [h]
        refine ⟨by decide, by decide, by decide, by decide, by decide⟩)
  have hw : write_srt [⟨0, 1000, chars "hello"⟩,
      ⟨1500, 3000, chars " world "⟩] = .ok (chars
        "1\n00:00:00,000 --> 00:00:01,000\nhello\n\n2\n00:00:01,500 --> 00:00:03,000\nworld\n\n") := rfl
  have hcc : c = chars
      "1\n00:00:00,000 --> 00:00:01,000\nhello\n\n2\n00:00:01,500 --> 00:00:03,000\nworld\n\n" :=
    Except.ok.inj (hc.symm.trans hw)
  subst hcc
  exact ⟨hw, hr.trans rfl⟩
